import Mathlib

/-
Verification of the open-addressing hash map in `src/lib.rs`
(`ademyanchuk/hashmap-rs`).

Shallow embedding conventions:
* The slot type `Entry` and the container `HashMap` mirror the Rust types.
* Rust's `DefaultHasher` is modelled by an arbitrary deterministic function
  `hash : K → Nat` (the code only ever uses `hash(key) % table.len()`, so the
  64-bit width of the hasher output is irrelevant to the control flow).
* Each fallible/panicking operation returns `Option`: `none` models the
  `panic!("Infinite loop!")` safety fence (and, for the rehash placement loop
  of `resize`, the silent infinite loop that Rust would enter when the target
  table has no free slot).  The probe loops are written with an explicit fuel
  argument; called with fuel `table.len() + 2` the fuel can never be exhausted
  before the `cnt > len` fence in the source fires, so `none` is produced
  exactly when the Rust code panics (or diverges).
* The borrowed-key lookup (`Q: Borrow<K>`) is specialised to `Q = K`; the
  hash/equality-consistency contract makes this faithful.
* `usize` arithmetic is modelled by `Nat`; the only subtraction, `items -= 1`
  in `remove`, happens when a live pair was found, so no underflow occurs on
  the states we characterise.
-/

namespace HM

set_option linter.unusedSectionVars false

/-- Rust `enum Entry<K, V> { Empty, Del, Pair { key, val } }`. -/
inductive Entry (K V : Type) where
  | Empty : Entry K V
  | Del : Entry K V
  | Pair (key : K) (val : V) : Entry K V
  deriving DecidableEq

/-- Rust `struct HashMap<K, V> { table: Vec<Entry<K,V>>, items: usize, tombs: usize }`. -/
structure HashMap (K V : Type) where
  table : List (Entry K V)
  items : Nat
  tombs : Nat
  deriving DecidableEq

/-- Rust `const INITIAL_SIZE: usize = 1`. -/
def INITIAL_SIZE : Nat := 1

variable {K V : Type} [DecidableEq K]

/-- Rust `HashMap::new()`. -/
def HashMap.new : HashMap K V := ⟨[], 0, 0⟩

/-- Rust `HashMap::len()`. -/
def HashMap.len (m : HashMap K V) : Nat := m.items

/-- Rust `HashMap::is_empty()`. -/
def HashMap.is_empty (m : HashMap K V) : Bool := m.items == 0

/-- The placement loop inside `resize`:
`while let Entry::Pair{..} = new_table[idx] { idx = (idx + 1) % new_size }`.
Returns the index of the first non-`Pair` slot reached from `idx` by linear
probing; `none` models the infinite loop that Rust enters when every slot of
the table is a `Pair` (with fuel `t.length` this is exact, because `t.length`
consecutive probes visit every slot). -/
def findSlot (t : List (Entry K V)) : Nat → Nat → Option Nat
  | _idx, 0 => none
  | idx, fuel + 1 =>
    match t[idx]? with
    | some (Entry.Pair _ _) => findSlot t ((idx + 1) % t.length) fuel
    | some _ => some idx
    | none => none

/-- The `for entry in self.table.drain(..)` loop of `resize`: every `Pair`
of the old table (first argument) is re-hashed and placed into the new table
(second argument) at the first non-`Pair` slot of its probe sequence. -/
def rehashAll (hash : K → Nat) : List (Entry K V) → List (Entry K V) → Option (List (Entry K V))
  | [], nt => some nt
  | Entry.Pair k v :: rest, nt =>
    match findSlot nt (hash k % nt.length) nt.length with
    | some j => rehashAll hash rest (nt.set j (Entry.Pair k v))
    | none => none
  | _ :: rest, nt => rehashAll hash rest nt

/-- Rust `HashMap::resize(rehash_only)`: growth mode (`rehash_only = false`)
doubles the capacity (`INITIAL_SIZE` from zero), declutter mode keeps it; all
live pairs are re-probed into a fresh all-`Empty` table and `tombs` is reset. -/
def HashMap.resize (hash : K → Nat) (rehash_only : Bool) (m : HashMap K V) :
    Option (HashMap K V) :=
  let new_size :=
    if rehash_only then m.table.length
    else if m.table.length = 0 then INITIAL_SIZE else 2 * m.table.length
  match rehashAll hash m.table (List.replicate new_size Entry.Empty) with
  | some nt => some ⟨nt, m.items, 0⟩
  | none => none

/-- Result of the shared probe loop: the slot index where the scan stopped,
together with the stored key/value in the `Pair` case. -/
inductive ProbeResult (K V : Type) where
  | foundAt (j : Nat) (key : K) (val : V) : ProbeResult K V
  | emptyAt (j : Nat) : ProbeResult K V
  deriving DecidableEq

/-- The probe loop shared (textually repeated in the Rust source) by `insert`,
`get` and `remove`:

```
while !matches!(self.table[idx], Entry::Empty) {
    if let Entry::Pair { key: ek, .. } = &self.table[idx] {
        if *ek == key { ... return ... } }
    idx = (idx + 1) % self.table.len();
    if cnt > self.table.len() { panic!("Infinite loop!") }
    cnt += 1;
}
```

`none` models the panic.  With fuel `t.length + 2` the fuel is never
exhausted before the `cnt > len` fence fires, so `none` is exact. -/
def probe (t : List (Entry K V)) (k : K) : Nat → Nat → Nat → Option (ProbeResult K V)
  | _idx, _cnt, 0 => none
  | idx, cnt, fuel + 1 =>
    match t[idx]? with
    | some Entry.Empty => some (ProbeResult.emptyAt idx)
    | some (Entry.Pair ek ev) =>
      if ek = k then some (ProbeResult.foundAt idx ek ev)
      else if t.length < cnt then none
      else probe t k ((idx + 1) % t.length) (cnt + 1) fuel
    | some Entry.Del =>
      if t.length < cnt then none
      else probe t k ((idx + 1) % t.length) (cnt + 1) fuel
    | none => none

/-- The probe-and-write phase of `insert` (everything after the growth check):
on an equal key the stored value is swapped out and returned, on an `Empty`
slot a fresh pair is written and `items` is incremented. -/
def HashMap.insertProbe (hash : K → Nat) (m1 : HashMap K V) (k : K) (v : V) :
    Option (Option V × HashMap K V) :=
  match probe m1.table k (hash k % m1.table.length) 0 (m1.table.length + 2) with
  | some (ProbeResult.foundAt j ek ev) =>
    some (some ev, ⟨m1.table.set j (Entry.Pair ek v), m1.items, m1.tombs⟩)
  | some (ProbeResult.emptyAt j) =>
    some (none, ⟨m1.table.set j (Entry.Pair k v), m1.items + 1, m1.tombs⟩)
  | none => none

/-- Rust `HashMap::insert`: grow when the table is empty or
`items >= 3 * capacity / 4`, then probe. -/
def HashMap.insert (hash : K → Nat) (m : HashMap K V) (k : K) (v : V) :
    Option (Option V × HashMap K V) :=
  match (if m.table.length = 0 ∨ 3 * m.table.length / 4 ≤ m.items
         then HashMap.resize hash false m else some m) with
  | none => none
  | some m1 => HashMap.insertProbe hash m1 k v

/-- The probe phase of `get` (everything after the declutter check). -/
def HashMap.getProbe (hash : K → Nat) (m1 : HashMap K V) (k : K) :
    Option (Option V × HashMap K V) :=
  match probe m1.table k (hash k % m1.table.length) 0 (m1.table.length + 2) with
  | some (ProbeResult.foundAt _ _ ev) => some (some ev, m1)
  | some (ProbeResult.emptyAt _) => some (none, m1)
  | none => none

/-- Rust `HashMap::get`: `None` on a zero-capacity table, otherwise an
in-place rehash when `items + tombs > 3 * capacity / 4`, then probe.  The
returned `Option V` is the looked-up value, the returned map is the (possibly
decluttered) state. -/
def HashMap.get (hash : K → Nat) (m : HashMap K V) (k : K) :
    Option (Option V × HashMap K V) :=
  if m.table.length = 0 then some (none, m)
  else
    match (if 3 * m.table.length / 4 < m.items + m.tombs
           then HashMap.resize hash true m else some m) with
    | none => none
    | some m1 => HashMap.getProbe hash m1 k

/-- Rust `HashMap::contains_key`, defined as `self.get(key).is_some()`. -/
def HashMap.contains_key (hash : K → Nat) (m : HashMap K V) (k : K) :
    Option (Bool × HashMap K V) :=
  match HashMap.get hash m k with
  | some (r, m') => some (r.isSome, m')
  | none => none

/-- The probe-and-delete phase of `remove` (everything after the declutter
check): a found pair is replaced by `Del`, `items` decremented, `tombs`
incremented, and the value returned. -/
def HashMap.removeProbe (hash : K → Nat) (m1 : HashMap K V) (k : K) :
    Option (Option V × HashMap K V) :=
  match probe m1.table k (hash k % m1.table.length) 0 (m1.table.length + 2) with
  | some (ProbeResult.foundAt j _ ev) =>
    some (some ev, ⟨m1.table.set j Entry.Del, m1.items - 1, m1.tombs + 1⟩)
  | some (ProbeResult.emptyAt _) => some (none, m1)
  | none => none

/-- Rust `HashMap::remove`: `None` on a zero-capacity table, otherwise the
same declutter rule as `get`, then probe-and-delete. -/
def HashMap.remove (hash : K → Nat) (m : HashMap K V) (k : K) :
    Option (Option V × HashMap K V) :=
  if m.table.length = 0 then some (none, m)
  else
    match (if 3 * m.table.length / 4 < m.items + m.tombs
           then HashMap.resize hash true m else some m) with
    | none => none
    | some m1 => HashMap.removeProbe hash m1 k

/-- States reachable from `HashMap::new()` by completed (non-panicking)
`insert` / `get` / `contains_key` / `remove` calls. -/
inductive Reachable (hash : K → Nat) : HashMap K V → Prop where
  | new : Reachable hash HashMap.new
  | insert_step (m : HashMap K V) (k : K) (v : V) (r : Option V) (m' : HashMap K V) :
      Reachable hash m → HashMap.insert hash m k v = some (r, m') → Reachable hash m'
  | get_step (m : HashMap K V) (k : K) (r : Option V) (m' : HashMap K V) :
      Reachable hash m → HashMap.get hash m k = some (r, m') → Reachable hash m'
  | contains_step (m : HashMap K V) (k : K) (r : Bool) (m' : HashMap K V) :
      Reachable hash m → HashMap.contains_key hash m k = some (r, m') → Reachable hash m'
  | remove_step (m : HashMap K V) (k : K) (r : Option V) (m' : HashMap K V) :
      Reachable hash m → HashMap.remove hash m k = some (r, m') → Reachable hash m'

/-! ## Slot predicates and counting helpers -/

/-- Whether a slot is a live `Pair`. -/
def isPairE : Entry K V → Bool
  | Entry.Pair _ _ => true
  | _ => false

/-- Whether a slot is a tombstone. -/
def isDelE : Entry K V → Bool
  | Entry.Del => true
  | _ => false

/-- Whether a slot is `Empty`. -/
def isEmptyE : Entry K V → Bool
  | Entry.Empty => true
  | _ => false

/-- Whether position `p` of the table holds an `Empty` slot. -/
def isEmptyAt (t : List (Entry K V)) (p : Nat) : Bool :=
  match t[p]? with
  | some e => isEmptyE e
  | none => false

/-- Whether position `p` of the table holds a `Pair` slot. -/
def isPairAt (t : List (Entry K V)) (p : Nat) : Bool :=
  match t[p]? with
  | some e => isPairE e
  | none => false

/-- Number of live `Pair` slots of a table. -/
def countPairs : List (Entry K V) → Nat
  | [] => 0
  | e :: t => (if isPairE e then 1 else 0) + countPairs t

/-- Number of tombstone slots of a table. -/
def countDels : List (Entry K V) → Nat
  | [] => 0
  | e :: t => (if isDelE e then 1 else 0) + countDels t

/-- Number of `Empty` slots of a table. -/
def countEmpties : List (Entry K V) → Nat
  | [] => 0
  | e :: t => (if isEmptyE e then 1 else 0) + countEmpties t

/-- The live key/value pairs of a table, in slot order. -/
def pairsOf : List (Entry K V) → List (K × V)
  | [] => []
  | Entry.Pair k v :: t => (k, v) :: pairsOf t
  | _ :: t => pairsOf t

/-- The keys of the live pairs of a table, in slot order. -/
def keysOf (t : List (Entry K V)) : List K := (pairsOf t).map Prod.fst

/-- The abstract association: the value of the first live pair with key `k`. -/
def lookupTable : List (Entry K V) → K → Option V
  | [], _ => none
  | Entry.Pair ek ev :: t, k => if ek = k then some ev else lookupTable t k
  | _ :: t, k => lookupTable t k

/-- The abstract partial map represented by a `HashMap` state. -/
def model (m : HashMap K V) (k : K) : Option V := lookupTable m.table k

theorem counts_sum (t : List (Entry K V)) :
    countPairs t + countDels t + countEmpties t = t.length := by
  induction t with
  | nil => rfl
  | cons e t ih =>
    cases e <;> simp [countPairs, countDels, countEmpties, isPairE, isDelE, isEmptyE] <;> omega

theorem countPairs_le_length (t : List (Entry K V)) : countPairs t ≤ t.length := by
  have := counts_sum t
  omega

theorem countPairs_replicate_empty (n : Nat) :
    countPairs (List.replicate n (Entry.Empty : Entry K V)) = 0 := by
  induction n with
  | zero => rfl
  | succ n ih => simp [List.replicate, countPairs, isPairE, ih]

theorem countDels_replicate_empty (n : Nat) :
    countDels (List.replicate n (Entry.Empty : Entry K V)) = 0 := by
  induction n with
  | zero => rfl
  | succ n ih => simp [List.replicate, countDels, isDelE, ih]

theorem pairsOf_replicate_empty (n : Nat) :
    pairsOf (List.replicate n (Entry.Empty : Entry K V)) = [] := by
  induction n with
  | zero => rfl
  | succ n ih => simp [List.replicate, pairsOf, ih]

theorem length_pairsOf (t : List (Entry K V)) : (pairsOf t).length = countPairs t := by
  induction t with
  | nil => rfl
  | cons e t ih => cases e <;> simp [pairsOf, countPairs, isPairE, ih] <;> omega

theorem mem_pairsOf_iff {t : List (Entry K V)} {k : K} {v : V} :
    (k, v) ∈ pairsOf t ↔ ∃ j : Nat, t[j]? = some (Entry.Pair k v) := by
  induction t with
  | nil => simp [pairsOf]
  | cons e t ih =>
    constructor
    · intro hmem
      cases e with
      | Pair ek ev =>
        rcases (by simpa [pairsOf] using hmem : (k, v) = (ek, ev) ∨ (k, v) ∈ pairsOf t) with
          heq | htail
        · have h1 : k = ek := congrArg Prod.fst heq
          have h2 : v = ev := congrArg Prod.snd heq
          subst h1; subst h2
          exact ⟨0, by simp⟩
        · obtain ⟨j, hj⟩ := ih.mp htail
          exact ⟨j + 1, by simpa using hj⟩
      | Empty =>
        obtain ⟨j, hj⟩ := ih.mp (by simpa [pairsOf] using hmem)
        exact ⟨j + 1, by simpa using hj⟩
      | Del =>
        obtain ⟨j, hj⟩ := ih.mp (by simpa [pairsOf] using hmem)
        exact ⟨j + 1, by simpa using hj⟩
    · rintro ⟨j, hj⟩
      cases j with
      | zero =>
        simp only [List.getElem?_cons_zero, Option.some.injEq] at hj
        subst hj
        simp [pairsOf]
      | succ j =>
        simp only [List.getElem?_cons_succ] at hj
        have := ih.mpr ⟨j, hj⟩
        cases e <;> simp [pairsOf, this]

theorem mem_keysOf_iff {t : List (Entry K V)} {k : K} :
    k ∈ keysOf t ↔ ∃ (j : Nat) (v : V), t[j]? = some (Entry.Pair k v) := by
  constructor
  · intro h
    obtain ⟨⟨k', v⟩, hmem, hk⟩ := List.mem_map.mp h
    cases hk
    obtain ⟨j, hj⟩ := mem_pairsOf_iff.mp hmem
    exact ⟨j, v, hj⟩
  · rintro ⟨j, v, hj⟩
    exact List.mem_map.mpr ⟨(k, v), mem_pairsOf_iff.mpr ⟨j, hj⟩, rfl⟩

theorem keysOf_cons_pair (ek : K) (ev : V) (t : List (Entry K V)) :
    keysOf (Entry.Pair ek ev :: t) = ek :: keysOf t := by simp [keysOf, pairsOf]

theorem keysOf_cons_empty (t : List (Entry K V)) :
    keysOf ((Entry.Empty : Entry K V) :: t) = keysOf t := by simp [keysOf, pairsOf]

theorem keysOf_cons_del (t : List (Entry K V)) :
    keysOf ((Entry.Del : Entry K V) :: t) = keysOf t := by simp [keysOf, pairsOf]

theorem pairsOf_cons_pair (ek : K) (ev : V) (t : List (Entry K V)) :
    pairsOf (Entry.Pair ek ev :: t) = (ek, ev) :: pairsOf t := rfl

theorem pairsOf_cons_empty (t : List (Entry K V)) :
    pairsOf ((Entry.Empty : Entry K V) :: t) = pairsOf t := rfl

theorem pairsOf_cons_del (t : List (Entry K V)) :
    pairsOf ((Entry.Del : Entry K V) :: t) = pairsOf t := rfl

theorem lookupTable_cons_pair (ek : K) (ev : V) (t : List (Entry K V)) (k : K) :
    lookupTable (Entry.Pair ek ev :: t) k = if ek = k then some ev else lookupTable t k := rfl

theorem lookupTable_cons_empty (t : List (Entry K V)) (k : K) :
    lookupTable ((Entry.Empty : Entry K V) :: t) k = lookupTable t k := rfl

theorem lookupTable_cons_del (t : List (Entry K V)) (k : K) :
    lookupTable ((Entry.Del : Entry K V) :: t) k = lookupTable t k := rfl

theorem lookupTable_eq_none_iff {t : List (Entry K V)} {k : K} :
    lookupTable t k = none ↔ k ∉ keysOf t := by
  induction t with
  | nil => simp [lookupTable, keysOf, pairsOf]
  | cons e t ih =>
    cases e with
    | Pair ek ev =>
      rw [keysOf_cons_pair]
      by_cases hek : ek = k
      · subst hek
        simp [lookupTable_cons_pair]
      · have hke : ¬(k = ek) := fun h => hek h.symm
        simp only [lookupTable_cons_pair, if_neg hek, List.mem_cons]
        rw [ih]
        constructor
        · intro h hor
          exact hor.elim hke h
        · intro h hk
          exact h (Or.inr hk)
    | Empty => rw [keysOf_cons_empty]; simpa [lookupTable_cons_empty] using ih
    | Del => rw [keysOf_cons_del]; simpa [lookupTable_cons_del] using ih

theorem lookupTable_mem {t : List (Entry K V)} {k : K} {v : V}
    (h : lookupTable t k = some v) : (k, v) ∈ pairsOf t := by
  induction t with
  | nil => simp [lookupTable] at h
  | cons e t ih =>
    cases e with
    | Pair ek ev =>
      by_cases hek : ek = k
      · rw [lookupTable_cons_pair, if_pos hek] at h
        have hv : ev = v := Option.some.inj h
        subst hek
        subst hv
        simp [pairsOf]
      · rw [lookupTable_cons_pair, if_neg hek] at h
        simp [pairsOf, ih h]
    | Empty =>
      rw [lookupTable_cons_empty] at h
      simp [pairsOf, ih h]
    | Del =>
      rw [lookupTable_cons_del] at h
      simp [pairsOf, ih h]

theorem lookupTable_of_mem {t : List (Entry K V)} {k : K} {v : V}
    (hnd : (keysOf t).Nodup) (hmem : (k, v) ∈ pairsOf t) : lookupTable t k = some v := by
  induction t with
  | nil => simp [pairsOf] at hmem
  | cons e t ih =>
    cases e with
    | Pair ek ev =>
      rw [keysOf_cons_pair] at hnd
      have hnd' : (keysOf t).Nodup := hnd.of_cons
      have hnotmem : ek ∉ keysOf t := (List.nodup_cons.mp hnd).1
      rcases (by simpa [pairsOf] using hmem : (k = ek ∧ v = ev) ∨ (k, v) ∈ pairsOf t) with
        heq | htail
      · obtain ⟨h1, h2⟩ := heq
        subst h1; subst h2
        simp [lookupTable_cons_pair]
      · have hk : k ∈ keysOf t := List.mem_map.mpr ⟨(k, v), htail, rfl⟩
        have hek : ek ≠ k := fun h => hnotmem (h ▸ hk)
        rw [lookupTable_cons_pair, if_neg hek]
        exact ih hnd' htail
    | Empty =>
      rw [keysOf_cons_empty] at hnd
      rw [lookupTable_cons_empty]
      exact ih hnd (by simpa [pairsOf] using hmem)
    | Del =>
      rw [keysOf_cons_del] at hnd
      rw [lookupTable_cons_del]
      exact ih hnd (by simpa [pairsOf] using hmem)

/-- Under key-uniqueness, a key determines the slot holding its pair. -/
theorem nodup_pair_unique {t : List (Entry K V)} {i j : Nat} {k : K} {v v' : V}
    (hnd : (keysOf t).Nodup)
    (hi : t[i]? = some (Entry.Pair k v)) (hj : t[j]? = some (Entry.Pair k v')) : i = j := by
  induction t generalizing i j with
  | nil => simp at hi
  | cons e t ih =>
    cases i with
    | zero =>
      simp only [List.getElem?_cons_zero, Option.some.injEq] at hi
      subst hi
      cases j with
      | zero => rfl
      | succ j =>
        simp only [List.getElem?_cons_succ] at hj
        rw [keysOf_cons_pair] at hnd
        exact absurd (mem_keysOf_iff.mpr ⟨j, v', hj⟩) (List.nodup_cons.mp hnd).1
    | succ i =>
      cases j with
      | zero =>
        simp only [List.getElem?_cons_zero, Option.some.injEq] at hj
        subst hj
        simp only [List.getElem?_cons_succ] at hi
        rw [keysOf_cons_pair] at hnd
        exact absurd (mem_keysOf_iff.mpr ⟨i, v, hi⟩) (List.nodup_cons.mp hnd).1
      | succ j =>
        simp only [List.getElem?_cons_succ] at hi hj
        have hnd' : (keysOf t).Nodup := by
          cases e with
          | Pair ek ev => rw [keysOf_cons_pair] at hnd; exact hnd.of_cons
          | Empty => rwa [keysOf_cons_empty] at hnd
          | Del => rwa [keysOf_cons_del] at hnd
        exact congrArg Nat.succ (ih hnd' hi hj)

/-! ## Modular arithmetic on probe positions -/

theorem mod_succ_shift (x n : Nat) : (x % n + 1) % n = (x + 1) % n := by
  conv_rhs => rw [Nat.add_mod]
  simp [Nat.add_mod]

theorem probe_offset_inj {n i j home : Nat} (hi : i < n) (hj : j < n)
    (h : (home + i) % n = (home + j) % n) : i = j := by
  have h2 : i % n = j % n := Nat.ModEq.add_left_cancel (Nat.ModEq.refl home) h
  rwa [Nat.mod_eq_of_lt hi, Nat.mod_eq_of_lt hj] at h2

theorem off_home {p n home : Nat} (hp : p < n) (hh : home < n) :
    (home + (p + n - home) % n) % n = p := by
  have h1 : (home + (p + n - home) % n) % n = (home + (p + n - home)) % n := by
    simp [Nat.add_mod]
  rw [h1]
  have h3 : home + (p + n - home) = p + n := by omega
  rw [h3]
  simp [Nat.add_mod_right, Nat.mod_eq_of_lt hp]

/-! ## Table surgery: reading and writing single slots -/

theorem set_getElem_self {t : List (Entry K V)} {j : Nat} (e : Entry K V) (h : j < t.length) :
    (t.set j e)[j]? = some e := by
  simp [List.getElem?_set_self', List.getElem?_eq_getElem h]

theorem set_getElem_ne {t : List (Entry K V)} {i j : Nat} (e : Entry K V) (h : i ≠ j) :
    (t.set j e)[i]? = t[i]? := List.getElem?_set_ne (by omega)

theorem getElem_lt_length {t : List (Entry K V)} {j : Nat} {e : Entry K V}
    (h : t[j]? = some e) : j < t.length := (List.getElem?_eq_some.mp h).1

theorem getElem_of_lt {t : List (Entry K V)} {j : Nat} (h : j < t.length) :
    ∃ e, t[j]? = some e := ⟨t[j], List.getElem?_eq_getElem h⟩

theorem isEmptyAt_iff {t : List (Entry K V)} {p : Nat} :
    isEmptyAt t p = true ↔ t[p]? = some Entry.Empty := by
  cases h : t[p]? with
  | none => simp [isEmptyAt, h]
  | some e => cases e <;> simp [isEmptyAt, h, isEmptyE]

theorem isPairAt_iff {t : List (Entry K V)} {p : Nat} :
    isPairAt t p = true ↔ ∃ (k : K) (v : V), t[p]? = some (Entry.Pair k v) := by
  cases h : t[p]? with
  | none => simp [isPairAt, h]
  | some e => cases e <;> simp [isPairAt, h, isPairE]

theorem isEmptyAt_set_nonempty {t : List (Entry K V)} {p j : Nat} {e : Entry K V}
    (he : isEmptyE e = false) (h : isEmptyAt t p = false) :
    isEmptyAt (t.set j e) p = false := by
  by_cases hpj : p = j
  · subst hpj
    by_cases hlt : p < t.length
    · simp [isEmptyAt, set_getElem_self e hlt, he]
    · rw [List.set_eq_of_length_le (by omega)]
      exact h
  · rwa [isEmptyAt, set_getElem_ne e hpj]

theorem countPairs_cons (e : Entry K V) (t : List (Entry K V)) :
    countPairs (e :: t) = (if isPairE e then 1 else 0) + countPairs t := rfl

theorem countDels_cons (e : Entry K V) (t : List (Entry K V)) :
    countDels (e :: t) = (if isDelE e then 1 else 0) + countDels t := rfl

theorem countPairs_set {t : List (Entry K V)} {j : Nat} {e : Entry K V} (e' : Entry K V)
    (h : t[j]? = some e) :
    countPairs (t.set j e') + (if isPairE e then 1 else 0)
      = countPairs t + (if isPairE e' then 1 else 0) := by
  induction t generalizing j with
  | nil => simp at h
  | cons a t ih =>
    cases j with
    | zero =>
      simp only [List.getElem?_cons_zero, Option.some.injEq] at h
      subst h
      simp only [List.set_cons_zero, countPairs_cons]
      omega
    | succ j =>
      simp only [List.getElem?_cons_succ] at h
      simp only [List.set_cons_succ, countPairs_cons]
      have := ih h
      omega

theorem countDels_set {t : List (Entry K V)} {j : Nat} {e : Entry K V} (e' : Entry K V)
    (h : t[j]? = some e) :
    countDels (t.set j e') + (if isDelE e then 1 else 0)
      = countDels t + (if isDelE e' then 1 else 0) := by
  induction t generalizing j with
  | nil => simp at h
  | cons a t ih =>
    cases j with
    | zero =>
      simp only [List.getElem?_cons_zero, Option.some.injEq] at h
      subst h
      simp only [List.set_cons_zero, countDels_cons]
      omega
    | succ j =>
      simp only [List.getElem?_cons_succ] at h
      simp only [List.set_cons_succ, countDels_cons]
      have := ih h
      omega

theorem pairsOf_set_pair_perm {t : List (Entry K V)} {j : Nat} {e : Entry K V} {k : K} {v : V}
    (h : t[j]? = some e) (he : isPairE e = false) :
    (pairsOf (t.set j (Entry.Pair k v))).Perm ((k, v) :: pairsOf t) := by
  induction t generalizing j with
  | nil => simp at h
  | cons a t ih =>
    cases j with
    | zero =>
      simp only [List.getElem?_cons_zero, Option.some.injEq] at h
      subst h
      rw [List.set_cons_zero, pairsOf_cons_pair]
      cases a with
      | Pair k0 v0 => simp [isPairE] at he
      | Empty => rw [pairsOf_cons_empty]
      | Del => rw [pairsOf_cons_del]
    | succ j =>
      simp only [List.getElem?_cons_succ] at h
      rw [List.set_cons_succ]
      cases a with
      | Pair k0 v0 =>
        rw [pairsOf_cons_pair, pairsOf_cons_pair]
        exact ((ih h).cons (k0, v0)).trans (List.Perm.swap (k, v) (k0, v0) (pairsOf t))
      | Empty => rw [pairsOf_cons_empty, pairsOf_cons_empty]; exact ih h
      | Del => rw [pairsOf_cons_del, pairsOf_cons_del]; exact ih h

theorem pairsOf_set_del_sublist (t : List (Entry K V)) (j : Nat) :
    (pairsOf (t.set j Entry.Del)).Sublist (pairsOf t) := by
  induction t generalizing j with
  | nil => simp [pairsOf]
  | cons a t ih =>
    cases j with
    | zero =>
      rw [List.set_cons_zero, pairsOf_cons_del]
      cases a with
      | Pair k0 v0 => rw [pairsOf_cons_pair]; exact (List.Sublist.refl _).cons (k0, v0)
      | Empty => rw [pairsOf_cons_empty]
      | Del => rw [pairsOf_cons_del]
    | succ j =>
      rw [List.set_cons_succ]
      cases a with
      | Pair k0 v0 => rw [pairsOf_cons_pair, pairsOf_cons_pair]; exact (ih j).cons₂ (k0, v0)
      | Empty => rw [pairsOf_cons_empty, pairsOf_cons_empty]; exact ih j
      | Del => rw [pairsOf_cons_del, pairsOf_cons_del]; exact ih j

theorem keysOf_set_pair_perm {t : List (Entry K V)} {j : Nat} {e : Entry K V} {k : K} {v : V}
    (h : t[j]? = some e) (he : isPairE e = false) :
    (keysOf (t.set j (Entry.Pair k v))).Perm (k :: keysOf t) := by
  simpa [keysOf] using (pairsOf_set_pair_perm h he).map Prod.fst

theorem keysOf_set_del_sublist (t : List (Entry K V)) (j : Nat) :
    (keysOf (t.set j Entry.Del)).Sublist (keysOf t) :=
  (pairsOf_set_del_sublist t j).map Prod.fst

theorem keysOf_set_pair_samekey {t : List (Entry K V)} {j : Nat} {ek : K} {ev : V} (v : V)
    (h : t[j]? = some (Entry.Pair ek ev)) :
    keysOf (t.set j (Entry.Pair ek v)) = keysOf t := by
  induction t generalizing j with
  | nil => simp at h
  | cons a t ih =>
    cases j with
    | zero =>
      simp only [List.getElem?_cons_zero, Option.some.injEq] at h
      subst h
      rw [List.set_cons_zero, keysOf_cons_pair, keysOf_cons_pair]
    | succ j =>
      simp only [List.getElem?_cons_succ] at h
      rw [List.set_cons_succ]
      cases a with
      | Pair k0 v0 => rw [keysOf_cons_pair, keysOf_cons_pair, ih h]
      | Empty => rw [keysOf_cons_empty, keysOf_cons_empty]; exact ih h
      | Del => rw [keysOf_cons_del, keysOf_cons_del]; exact ih h

/-! ## Lookup after a single-slot write -/

theorem lookup_set_pair_self {t : List (Entry K V)} {j : Nat} {ek : K} {ev : V} (v : V)
    (hnd : (keysOf t).Nodup) (h : t[j]? = some (Entry.Pair ek ev)) :
    lookupTable (t.set j (Entry.Pair ek v)) ek = some v := by
  have hlt : j < t.length := getElem_lt_length h
  have hmem : (ek, v) ∈ pairsOf (t.set j (Entry.Pair ek v)) :=
    mem_pairsOf_iff.mpr ⟨j, set_getElem_self _ hlt⟩
  have hnd' : (keysOf (t.set j (Entry.Pair ek v))).Nodup := by
    rwa [keysOf_set_pair_samekey v h]
  exact lookupTable_of_mem hnd' hmem

theorem lookup_set_samekey_other {t : List (Entry K V)} {j : Nat} {ek k' : K} {ev : V} (v : V)
    (hnd : (keysOf t).Nodup) (h : t[j]? = some (Entry.Pair ek ev)) (hne : k' ≠ ek) :
    lookupTable (t.set j (Entry.Pair ek v)) k' = lookupTable t k' := by
  have hnd' : (keysOf (t.set j (Entry.Pair ek v))).Nodup := by
    rwa [keysOf_set_pair_samekey v h]
  cases hold : lookupTable t k' with
  | some w =>
    obtain ⟨j', hj'⟩ := mem_pairsOf_iff.mp (lookupTable_mem hold)
    have hjj : j' ≠ j := by
      intro hcontra
      subst hcontra
      rw [hj'] at h
      have hpair := Option.some.inj h
      injection hpair with h1 h2
      exact hne h1
    have : (t.set j (Entry.Pair ek v))[j']? = some (Entry.Pair k' w) := by
      rwa [set_getElem_ne _ hjj]
    exact lookupTable_of_mem hnd' (mem_pairsOf_iff.mpr ⟨j', this⟩)
  | none =>
    rw [lookupTable_eq_none_iff] at hold
    rw [lookupTable_eq_none_iff]
    intro hmem
    obtain ⟨j', w, hj'⟩ := mem_keysOf_iff.mp hmem
    by_cases hjj : j' = j
    · subst hjj
      rw [set_getElem_self _ (getElem_lt_length h)] at hj'
      have hpair := Option.some.inj hj'
      injection hpair with h1 h2
      exact hne h1.symm
    · rw [set_getElem_ne _ hjj] at hj'
      exact hold (mem_keysOf_iff.mpr ⟨j', w, hj'⟩)

theorem lookup_set_empty_self {t : List (Entry K V)} {j : Nat} {k : K} (v : V)
    (hnd : (keysOf t).Nodup) (h : t[j]? = some Entry.Empty) (habs : k ∉ keysOf t) :
    lookupTable (t.set j (Entry.Pair k v)) k = some v := by
  have hlt : j < t.length := getElem_lt_length h
  have hperm := keysOf_set_pair_perm (k := k) (v := v) h (by simp [isPairE])
  have hnd' : (keysOf (t.set j (Entry.Pair k v))).Nodup :=
    hperm.nodup_iff.mpr (List.nodup_cons.mpr ⟨habs, hnd⟩)
  exact lookupTable_of_mem hnd' (mem_pairsOf_iff.mpr ⟨j, set_getElem_self _ hlt⟩)

theorem lookup_set_empty_other {t : List (Entry K V)} {j : Nat} {k k' : K} (v : V)
    (hnd : (keysOf t).Nodup) (h : t[j]? = some Entry.Empty) (habs : k ∉ keysOf t)
    (hne : k' ≠ k) :
    lookupTable (t.set j (Entry.Pair k v)) k' = lookupTable t k' := by
  have hperm := keysOf_set_pair_perm (k := k) (v := v) h (by simp [isPairE])
  have hnd' : (keysOf (t.set j (Entry.Pair k v))).Nodup :=
    hperm.nodup_iff.mpr (List.nodup_cons.mpr ⟨habs, hnd⟩)
  cases hold : lookupTable t k' with
  | some w =>
    obtain ⟨j', hj'⟩ := mem_pairsOf_iff.mp (lookupTable_mem hold)
    have hjj : j' ≠ j := by
      intro hcontra
      subst hcontra
      rw [hj'] at h
      exact absurd h (by simp)
    have : (t.set j (Entry.Pair k v))[j']? = some (Entry.Pair k' w) := by
      rwa [set_getElem_ne _ hjj]
    exact lookupTable_of_mem hnd' (mem_pairsOf_iff.mpr ⟨j', this⟩)
  | none =>
    rw [lookupTable_eq_none_iff] at hold
    rw [lookupTable_eq_none_iff]
    intro hmem
    have : k' ∈ k :: keysOf t := hperm.mem_iff.mp hmem
    rcases List.mem_cons.mp this with heq | htl
    · exact hne heq
    · exact hold htl

theorem lookup_set_del_self {t : List (Entry K V)} {j : Nat} {k : K} {v : V}
    (hnd : (keysOf t).Nodup) (h : t[j]? = some (Entry.Pair k v)) :
    lookupTable (t.set j Entry.Del) k = none := by
  rw [lookupTable_eq_none_iff]
  intro hmem
  obtain ⟨j', w, hj'⟩ := mem_keysOf_iff.mp hmem
  by_cases hjj : j' = j
  · subst hjj
    rw [set_getElem_self _ (getElem_lt_length h)] at hj'
    exact absurd hj' (by simp)
  · rw [set_getElem_ne _ hjj] at hj'
    exact hjj (nodup_pair_unique hnd hj' h)

theorem lookup_set_del_other {t : List (Entry K V)} {j : Nat} {k k' : K} {v : V}
    (hnd : (keysOf t).Nodup) (h : t[j]? = some (Entry.Pair k v)) (hne : k' ≠ k) :
    lookupTable (t.set j Entry.Del) k' = lookupTable t k' := by
  have hnd' : (keysOf (t.set j Entry.Del)).Nodup := hnd.sublist (keysOf_set_del_sublist t j)
  cases hold : lookupTable t k' with
  | some w =>
    obtain ⟨j', hj'⟩ := mem_pairsOf_iff.mp (lookupTable_mem hold)
    have hjj : j' ≠ j := by
      intro hcontra
      subst hcontra
      rw [hj'] at h
      have hpair := Option.some.inj h
      injection hpair with h1 h2
      exact hne h1
    have : (t.set j Entry.Del)[j']? = some (Entry.Pair k' w) := by
      rwa [set_getElem_ne _ hjj]
    exact lookupTable_of_mem hnd' (mem_pairsOf_iff.mpr ⟨j', this⟩)
  | none =>
    rw [lookupTable_eq_none_iff] at hold
    rw [lookupTable_eq_none_iff]
    intro hmem
    obtain ⟨j', w, hj'⟩ := mem_keysOf_iff.mp hmem
    by_cases hjj : j' = j
    · subst hjj
      rw [set_getElem_self _ (getElem_lt_length h)] at hj'
      exact absurd hj' (by simp)
    · rw [set_getElem_ne _ hjj] at hj'
      exact hold (mem_keysOf_iff.mpr ⟨j', w, hj'⟩)

/-! ## Existence of free slots from the counters -/

theorem countEmpties_pos_exists {t : List (Entry K V)} (h : 0 < countEmpties t) :
    ∃ p : Nat, p < t.length ∧ t[p]? = some Entry.Empty := by
  induction t with
  | nil => simp [countEmpties] at h
  | cons e t ih =>
    cases e with
    | Empty => exact ⟨0, by simp⟩
    | Del =>
      have h' : 0 < countEmpties t := by simpa [countEmpties, isEmptyE] using h
      obtain ⟨p, hp, hget⟩ := ih h'
      exact ⟨p + 1, by simpa using hp, by simpa using hget⟩
    | Pair k v =>
      have h' : 0 < countEmpties t := by simpa [countEmpties, isEmptyE] using h
      obtain ⟨p, hp, hget⟩ := ih h'
      exact ⟨p + 1, by simpa using hp, by simpa using hget⟩

theorem exists_empty_slot {t : List (Entry K V)}
    (h : countPairs t + countDels t < t.length) :
    ∃ p : Nat, p < t.length ∧ t[p]? = some Entry.Empty := by
  have := counts_sum t
  exact countEmpties_pos_exists (by omega)

theorem exists_nonpair_slot {t : List (Entry K V)} (h : countPairs t < t.length) :
    ∃ p : Nat, p < t.length ∧ isPairAt t p = false := by
  induction t with
  | nil => simp at h
  | cons e t ih =>
    cases e with
    | Empty => exact ⟨0, by simp, by simp [isPairAt, isPairE]⟩
    | Del => exact ⟨0, by simp, by simp [isPairAt, isPairE]⟩
    | Pair k v =>
      have h' : countPairs t < t.length := by
        rw [countPairs_cons] at h
        simp [isPairE] at h
        omega
      obtain ⟨p, hp, hget⟩ := ih h'
      refine ⟨p + 1, by simpa using hp, ?_⟩
      simpa [isPairAt] using hget

/-! ## The probe-sequence invariant -/

/-- Every live pair is reachable from its home position by a probe path that
contains no `Empty` slot before the pair itself.  This is the invariant that
makes linear-probing lookup complete. -/
def pathOk (hash : K → Nat) (t : List (Entry K V)) : Prop :=
  ∀ (j : Nat) (k : K) (v : V), t[j]? = some (Entry.Pair k v) →
    ∃ d, d < t.length ∧ (hash k % t.length + d) % t.length = j ∧
      ∀ i, i < d → isEmptyAt t ((hash k % t.length + i) % t.length) = false

/-! ## Behaviour of the probe loop -/

theorem probe_found_aux {t : List (Entry K V)} {k : K} {v : V} {home j d : Nat}
    (hn : 0 < t.length) (hhome : home < t.length)
    (hnd : (keysOf t).Nodup)
    (hd : d < t.length) (hj : (home + d) % t.length = j)
    (hget : t[j]? = some (Entry.Pair k v))
    (hpre : ∀ i, i < d → isEmptyAt t ((home + i) % t.length) = false) :
    ∀ i, i ≤ d → probe t k ((home + i) % t.length) i (t.length + 2 - i) =
      some (ProbeResult.foundAt j k v) := by
  suffices hstep : ∀ c i, i ≤ d → d - i = c →
      probe t k ((home + i) % t.length) i (t.length + 2 - i) =
        some (ProbeResult.foundAt j k v) by
    exact fun i hi => hstep (d - i) i hi rfl
  intro c
  induction c with
  | zero =>
    intro i hi hc
    have hid : i = d := by omega
    subst hid
    have hfuel : t.length + 2 - i = (t.length + 1 - i) + 1 := by omega
    rw [hfuel, hj]
    simp [probe, hget]
  | succ c ih =>
    intro i hi hc
    have hlt : i < d := by omega
    have hplt : (home + i) % t.length < t.length := Nat.mod_lt _ hn
    obtain ⟨e, he⟩ := getElem_of_lt hplt
    have hne : isEmptyE e = false := by
      have hp := hpre i hlt
      rw [isEmptyAt, he] at hp
      exact hp
    have hfuel : t.length + 2 - i = (t.length + 1 - i) + 1 := by omega
    rw [hfuel]
    cases e with
    | Empty => simp [isEmptyE] at hne
    | Pair ek ev =>
      have hekk : ek ≠ k := by
        intro hcontra
        subst hcontra
        have hij : (home + i) % t.length = j := nodup_pair_unique hnd he hget
        rw [← hj] at hij
        have : i = d := probe_offset_inj (by omega) hd hij
        omega
      have hcnt : ¬(t.length < i) := by omega
      simp only [probe, he, if_neg hekk, if_neg hcnt]
      rw [mod_succ_shift]
      have hfuel2 : t.length + 1 - i = t.length + 2 - (i + 1) := by omega
      rw [hfuel2]
      exact ih (i + 1) (by omega) (by omega)
    | Del =>
      have hcnt : ¬(t.length < i) := by omega
      simp only [probe, he, if_neg hcnt]
      rw [mod_succ_shift]
      have hfuel2 : t.length + 1 - i = t.length + 2 - (i + 1) := by omega
      rw [hfuel2]
      exact ih (i + 1) (by omega) (by omega)

/-- On a table satisfying the probe invariant, the loop finds a present key. -/
theorem probe_found_of_lookup (hash : K → Nat) {t : List (Entry K V)} {k : K} {v : V}
    (hn : 0 < t.length) (hnd : (keysOf t).Nodup) (hpath : pathOk hash t)
    (hlk : lookupTable t k = some v) :
    ∃ j : Nat, probe t k (hash k % t.length) 0 (t.length + 2) =
        some (ProbeResult.foundAt j k v) ∧ t[j]? = some (Entry.Pair k v) := by
  obtain ⟨j, hj⟩ := mem_pairsOf_iff.mp (lookupTable_mem hlk)
  obtain ⟨d, hd, hjd, hpre⟩ := hpath j k v hj
  have hhome : hash k % t.length < t.length := Nat.mod_lt _ hn
  have := probe_found_aux hn hhome hnd hd hjd hj hpre 0 (by omega)
  refine ⟨j, ?_, hj⟩
  simpa [Nat.mod_eq_of_lt hhome] using this

theorem probe_absent_aux {t : List (Entry K V)} {k : K} {home e0 : Nat}
    (hn : 0 < t.length) (hhome : home < t.length)
    (habs : lookupTable t k = none)
    (he0 : e0 < t.length)
    (hget : t[(home + e0) % t.length]? = some Entry.Empty)
    (hpre : ∀ i, i < e0 → isEmptyAt t ((home + i) % t.length) = false) :
    ∀ i, i ≤ e0 → probe t k ((home + i) % t.length) i (t.length + 2 - i) =
      some (ProbeResult.emptyAt ((home + e0) % t.length)) := by
  have hnok : k ∉ keysOf t := lookupTable_eq_none_iff.mp habs
  suffices hstep : ∀ c i, i ≤ e0 → e0 - i = c →
      probe t k ((home + i) % t.length) i (t.length + 2 - i) =
        some (ProbeResult.emptyAt ((home + e0) % t.length)) by
    exact fun i hi => hstep (e0 - i) i hi rfl
  intro c
  induction c with
  | zero =>
    intro i hi hc
    have hid : i = e0 := by omega
    subst hid
    have hfuel : t.length + 2 - i = (t.length + 1 - i) + 1 := by omega
    rw [hfuel]
    simp [probe, hget]
  | succ c ih =>
    intro i hi hc
    have hlt : i < e0 := by omega
    have hplt : (home + i) % t.length < t.length := Nat.mod_lt _ hn
    obtain ⟨e, he⟩ := getElem_of_lt hplt
    have hne : isEmptyE e = false := by
      have hp := hpre i hlt
      rw [isEmptyAt, he] at hp
      exact hp
    have hfuel : t.length + 2 - i = (t.length + 1 - i) + 1 := by omega
    rw [hfuel]
    cases e with
    | Empty => simp [isEmptyE] at hne
    | Pair ek ev =>
      have hekk : ek ≠ k := by
        intro hcontra
        subst hcontra
        exact hnok (mem_keysOf_iff.mpr ⟨(home + i) % t.length, ev, he⟩)
      have hcnt : ¬(t.length < i) := by omega
      simp only [probe, he, if_neg hekk, if_neg hcnt]
      rw [mod_succ_shift]
      have hfuel2 : t.length + 1 - i = t.length + 2 - (i + 1) := by omega
      rw [hfuel2]
      exact ih (i + 1) (by omega) (by omega)
    | Del =>
      have hcnt : ¬(t.length < i) := by omega
      simp only [probe, he, if_neg hcnt]
      rw [mod_succ_shift]
      have hfuel2 : t.length + 1 - i = t.length + 2 - (i + 1) := by omega
      rw [hfuel2]
      exact ih (i + 1) (by omega) (by omega)

/-- If the key is absent but the table has a free slot, the loop stops at the
first `Empty` slot of the probe sequence. -/
theorem probe_absent_of_empty {t : List (Entry K V)} {k : K} {home : Nat}
    (hn : 0 < t.length) (hhome : home < t.length)
    (habs : lookupTable t k = none)
    (hfree : ∃ p : Nat, p < t.length ∧ t[p]? = some Entry.Empty) :
    ∃ (j e0 : Nat), probe t k home 0 (t.length + 2) = some (ProbeResult.emptyAt j) ∧
      t[j]? = some Entry.Empty ∧ e0 < t.length ∧ j = (home + e0) % t.length ∧
      ∀ i, i < e0 → isEmptyAt t ((home + i) % t.length) = false := by
  obtain ⟨p, hp, hpE⟩ := hfree
  have hP : ∃ i, isEmptyAt t ((home + i) % t.length) = true := by
    refine ⟨(p + t.length - home) % t.length, ?_⟩
    rw [off_home hp hhome]
    exact isEmptyAt_iff.mpr hpE
  classical
  let e0 := Nat.find hP
  have he0P : isEmptyAt t ((home + e0) % t.length) = true := Nat.find_spec hP
  have he0min : ∀ i, i < e0 → isEmptyAt t ((home + i) % t.length) = false := by
    intro i hi
    have := Nat.find_min hP hi
    simpa using this
  have he0lt : e0 < t.length := by
    have hle : e0 ≤ (p + t.length - home) % t.length := by
      apply Nat.find_min' hP
      rw [off_home hp hhome]
      exact isEmptyAt_iff.mpr hpE
    have : (p + t.length - home) % t.length < t.length := Nat.mod_lt _ hn
    omega
  have hgetE : t[(home + e0) % t.length]? = some Entry.Empty := isEmptyAt_iff.mp he0P
  have := probe_absent_aux hn hhome habs he0lt hgetE he0min 0 (by omega)
  refine ⟨(home + e0) % t.length, e0, ?_, hgetE, he0lt, rfl, he0min⟩
  simpa [Nat.mod_eq_of_lt hhome] using this

/-- If the key is absent and the table has no `Empty` slot at all, the probe
loop hits the safety fence: the operation panics. -/
theorem probe_none_of_full {t : List (Entry K V)} {k : K}
    (habs : lookupTable t k = none)
    (hfull : ∀ p : Nat, p < t.length → isEmptyAt t p = false) :
    ∀ fuel idx cnt, probe t k idx cnt fuel = none := by
  have hnok : k ∉ keysOf t := lookupTable_eq_none_iff.mp habs
  intro fuel
  induction fuel with
  | zero => intro idx cnt; rfl
  | succ fuel ih =>
    intro idx cnt
    cases hidx : t[idx]? with
    | none => simp [probe, hidx]
    | some e =>
      cases e with
      | Empty =>
        have hlt : idx < t.length := getElem_lt_length hidx
        have : isEmptyAt t idx = true := isEmptyAt_iff.mpr hidx
        rw [hfull idx hlt] at this
        cases this
      | Pair ek ev =>
        have hekk : ek ≠ k := by
          intro hcontra
          subst hcontra
          exact hnok (mem_keysOf_iff.mpr ⟨idx, ev, hidx⟩)
        simp only [probe, hidx, if_neg hekk]
        by_cases hcnt : t.length < cnt
        · rw [if_pos hcnt]
        · rw [if_neg hcnt]
          exact ih _ _
      | Del =>
        simp only [probe, hidx]
        by_cases hcnt : t.length < cnt
        · rw [if_pos hcnt]
        · rw [if_neg hcnt]
          exact ih _ _

/-- Inverting a successful `foundAt` probe: the slot really holds a pair with
the looked-up key. -/
theorem probe_foundAt_inv {t : List (Entry K V)} {k : K} :
    ∀ {fuel idx cnt : Nat} {j : Nat} {ek : K} {ev : V},
      probe t k idx cnt fuel = some (ProbeResult.foundAt j ek ev) →
      t[j]? = some (Entry.Pair ek ev) ∧ ek = k := by
  intro fuel
  induction fuel with
  | zero => intro idx cnt j ek ev h; cases h
  | succ fuel ih =>
    intro idx cnt j ek ev h
    cases hidx : t[idx]? with
    | none => simp [probe, hidx] at h
    | some e =>
      cases e with
      | Empty => simp [probe, hidx] at h
      | Pair ek0 ev0 =>
        by_cases hek : ek0 = k
        · simp only [probe, hidx, if_pos hek] at h
          obtain ⟨h1, h2, h3⟩ := ProbeResult.foundAt.inj (Option.some.inj h)
          subst h1; subst h2; subst h3
          exact ⟨hidx, hek⟩
        · simp only [probe, hidx, if_neg hek] at h
          by_cases hcnt : t.length < cnt
          · rw [if_pos hcnt] at h; cases h
          · rw [if_neg hcnt] at h
            exact ih h
      | Del =>
        simp only [probe, hidx] at h
        by_cases hcnt : t.length < cnt
        · rw [if_pos hcnt] at h; cases h
        · rw [if_neg hcnt] at h
          exact ih h

/-- Inverting a successful `emptyAt` probe: the slot really is `Empty`. -/
theorem probe_emptyAt_inv {t : List (Entry K V)} {k : K} :
    ∀ {fuel idx cnt : Nat} {j : Nat},
      probe t k idx cnt fuel = some (ProbeResult.emptyAt j) →
      t[j]? = some Entry.Empty := by
  intro fuel
  induction fuel with
  | zero => intro idx cnt j h; cases h
  | succ fuel ih =>
    intro idx cnt j h
    cases hidx : t[idx]? with
    | none => simp [probe, hidx] at h
    | some e =>
      cases e with
      | Empty =>
        simp only [probe, hidx, Option.some.injEq] at h
        rw [← ProbeResult.emptyAt.inj h]
        exact hidx
      | Pair ek0 ev0 =>
        by_cases hek : ek0 = k
        · simp [probe, hidx, if_pos hek] at h
        · simp only [probe, hidx, if_neg hek] at h
          by_cases hcnt : t.length < cnt
          · rw [if_pos hcnt] at h; cases h
          · rw [if_neg hcnt] at h
            exact ih h
      | Del =>
        simp only [probe, hidx] at h
        by_cases hcnt : t.length < cnt
        · rw [if_pos hcnt] at h; cases h
        · rw [if_neg hcnt] at h
          exact ih h

/-! ## The rehash placement loop -/

theorem mod_add_shift (a b n : Nat) : (a % n + b) % n = (a + b) % n := by
  simp [Nat.add_mod]

theorem isEmptyAt_false_of_isPairAt {t : List (Entry K V)} {p : Nat}
    (h : isPairAt t p = true) : isEmptyAt t p = false := by
  obtain ⟨k, v, hget⟩ := isPairAt_iff.mp h
  simp [isEmptyAt, hget, isEmptyE]

theorem countDels_zero_no_del {t : List (Entry K V)} {j : Nat} {e : Entry K V}
    (h0 : countDels t = 0) (h : t[j]? = some e) : isDelE e = false := by
  induction t generalizing j with
  | nil => simp at h
  | cons a t ih =>
    rw [countDels_cons] at h0
    cases j with
    | zero =>
      simp only [List.getElem?_cons_zero, Option.some.injEq] at h
      subst h
      by_cases hd : isDelE a
      · rw [if_pos hd] at h0; omega
      · simpa using hd
    | succ j =>
      simp only [List.getElem?_cons_succ] at h
      exact ih (by omega) h

theorem findSlot_finds {t : List (Entry K V)} :
    ∀ (d : Nat) (idx : Nat), idx < t.length →
    (∀ i, i < d → isPairAt t ((idx + i) % t.length) = true) →
    isPairAt t ((idx + d) % t.length) = false →
    ∀ fuel : Nat, d < fuel → findSlot t idx fuel = some ((idx + d) % t.length) := by
  intro d
  induction d with
  | zero =>
    intro idx hidx hpre hstop fuel hfuel
    obtain ⟨f, hf⟩ : ∃ f, fuel = f + 1 := ⟨fuel - 1, by omega⟩
    subst hf
    rw [Nat.add_zero, Nat.mod_eq_of_lt hidx] at hstop
    obtain ⟨e, he⟩ := getElem_of_lt hidx
    have heF : isPairE e = false := by
      rw [isPairAt, he] at hstop
      exact hstop
    cases e with
    | Pair k v => simp [isPairE] at heF
    | Empty => simp [findSlot, he, Nat.add_zero, Nat.mod_eq_of_lt hidx]
    | Del => simp [findSlot, he, Nat.add_zero, Nat.mod_eq_of_lt hidx]
  | succ d ih =>
    intro idx hidx hpre hstop fuel hfuel
    obtain ⟨f, hf⟩ : ∃ f, fuel = f + 1 := ⟨fuel - 1, by omega⟩
    subst hf
    have hn : 0 < t.length := by omega
    have h0 : isPairAt t idx = true := by
      have := hpre 0 (by omega)
      rwa [Nat.add_zero, Nat.mod_eq_of_lt hidx] at this
    obtain ⟨k, v, hget⟩ := isPairAt_iff.mp h0
    have hidx' : (idx + 1) % t.length < t.length := Nat.mod_lt _ hn
    have hpre' : ∀ i, i < d → isPairAt t (((idx + 1) % t.length + i) % t.length) = true := by
      intro i hi
      rw [mod_add_shift]
      have heq : idx + 1 + i = idx + (i + 1) := by omega
      rw [heq]
      exact hpre (i + 1) (by omega)
    have hstop' : isPairAt t (((idx + 1) % t.length + d) % t.length) = false := by
      rw [mod_add_shift]
      have heq : idx + 1 + d = idx + (d + 1) := by omega
      rw [heq]
      exact hstop
    have hrec := ih ((idx + 1) % t.length) hidx' hpre' hstop' f (by omega)
    simp only [findSlot, hget]
    rw [hrec, mod_add_shift]
    have heq : idx + 1 + d = idx + (d + 1) := by omega
    rw [heq]

/-- Whenever the table has a non-`Pair` slot, the placement loop (run with
fuel `t.length` as in `resize`) stops at the first non-`Pair` slot of the
probe sequence. -/
theorem findSlot_spec {t : List (Entry K V)} {idx : Nat}
    (hn : 0 < t.length) (hidx : idx < t.length)
    (hfree : ∃ p : Nat, p < t.length ∧ isPairAt t p = false) :
    ∃ (j d : Nat), findSlot t idx t.length = some j ∧ j = (idx + d) % t.length ∧
      d < t.length ∧ isPairAt t j = false ∧
      ∀ i, i < d → isPairAt t ((idx + i) % t.length) = true := by
  obtain ⟨p, hp, hpF⟩ := hfree
  have hex : ∃ i, isPairAt t ((idx + i) % t.length) = false := by
    refine ⟨(p + t.length - idx) % t.length, ?_⟩
    rw [off_home hp hidx]
    exact hpF
  classical
  have hdP : isPairAt t ((idx + Nat.find hex) % t.length) = false := Nat.find_spec hex
  have hdmin : ∀ i, i < Nat.find hex → isPairAt t ((idx + i) % t.length) = true := by
    intro i hi
    have := Nat.find_min hex hi
    simpa using this
  have hdlt : Nat.find hex < t.length := by
    have hle : Nat.find hex ≤ (p + t.length - idx) % t.length := by
      apply Nat.find_min' hex
      rw [off_home hp hidx]
      exact hpF
    have : (p + t.length - idx) % t.length < t.length := Nat.mod_lt _ hn
    omega
  refine ⟨(idx + Nat.find hex) % t.length, Nat.find hex, ?_, rfl, hdlt, hdP, hdmin⟩
  exact findSlot_finds (Nat.find hex) idx hidx hdmin hdP t.length hdlt

/-! ## The table invariant -/

/-- The bookkeeping invariant of a `HashMap` state: the counters agree with
the slot array, live keys are pairwise distinct, and every live pair is
reachable by probing from its home position. -/
structure Good (hash : K → Nat) (m : HashMap K V) : Prop where
  items_eq : m.items = countPairs m.table
  tombs_eq : m.tombs = countDels m.table
  nodup : (keysOf m.table).Nodup
  path : pathOk hash m.table

theorem lookup_eq_of_perm {t t' : List (Entry K V)} (hnd : (keysOf t).Nodup)
    (hperm : (pairsOf t').Perm (pairsOf t)) (k : K) :
    lookupTable t' k = lookupTable t k := by
  have hkperm : (keysOf t').Perm (keysOf t) := by
    simpa [keysOf] using hperm.map Prod.fst
  have hnd' : (keysOf t').Nodup := hkperm.nodup_iff.mpr hnd
  cases hold : lookupTable t k with
  | some w =>
    exact lookupTable_of_mem hnd' (hperm.mem_iff.mpr (lookupTable_mem hold))
  | none =>
    rw [lookupTable_eq_none_iff] at hold
    rw [lookupTable_eq_none_iff]
    intro hmem
    exact hold (hkperm.mem_iff.mp hmem)

/-! ## The rehash engine -/

theorem rehashAll_spec (hash : K → Nat) :
    ∀ (src nt : List (Entry K V)),
      countDels nt = 0 →
      countPairs nt + countPairs src ≤ nt.length →
      (0 < nt.length ∨ countPairs src = 0) →
      pathOk hash nt →
      ∃ nt', rehashAll hash src nt = some nt' ∧
        nt'.length = nt.length ∧
        countDels nt' = 0 ∧
        countPairs nt' = countPairs nt + countPairs src ∧
        (pairsOf nt').Perm (pairsOf src ++ pairsOf nt) ∧
        pathOk hash nt' := by
  intro src
  induction src with
  | nil =>
    intro nt h1 h2 h3 hpath
    exact ⟨nt, rfl, rfl, h1, by simp [countPairs], by simp [pairsOf], hpath⟩
  | cons e rest ih =>
    intro nt h1 h2 h3 hpath
    cases e with
    | Pair k v =>
      have hcprest : countPairs (Entry.Pair k v :: rest) = 1 + countPairs rest := by
        rw [countPairs_cons]
        simp [isPairE]
      have hcp : countPairs nt < nt.length := by omega
      have hn : 0 < nt.length := by omega
      have hidx : hash k % nt.length < nt.length := Nat.mod_lt _ hn
      obtain ⟨j, d, hfind, hjd, hd, hjF, hpre⟩ :=
        findSlot_spec hn hidx (exists_nonpair_slot hcp)
      have hjlt : j < nt.length := by
        rw [hjd]
        exact Nat.mod_lt _ hn
      obtain ⟨ej, hej⟩ := getElem_of_lt hjlt
      have hejP : isPairE ej = false := by
        rw [isPairAt, hej] at hjF
        exact hjF
      have hejD : isDelE ej = false := countDels_zero_no_del h1 hej
      have hjE : nt[j]? = some Entry.Empty := by
        cases ej with
        | Empty => exact hej
        | Del => simp [isDelE] at hejD
        | Pair k0 v0 => simp [isPairE] at hejP
      have hlen2 : (nt.set j (Entry.Pair k v)).length = nt.length := List.length_set nt j _
      have hcount2 : countPairs (nt.set j (Entry.Pair k v)) = countPairs nt + 1 := by
        have := countPairs_set (Entry.Pair k v) hjE
        simp [isPairE, isEmptyE] at this
        omega
      have hdels2 : countDels (nt.set j (Entry.Pair k v)) = 0 := by
        have := countDels_set (Entry.Pair k v) hjE
        simp [isDelE, isEmptyE] at this
        omega
      have hperm2 : (pairsOf (nt.set j (Entry.Pair k v))).Perm ((k, v) :: pairsOf nt) :=
        pairsOf_set_pair_perm hjE (by simp [isPairE])
      have hpath2 : pathOk hash (nt.set j (Entry.Pair k v)) := by
        intro j' k2 v2 hj'
        by_cases hjj : j' = j
        · subst hjj
          rw [set_getElem_self _ hjlt] at hj'
          have hpair := Option.some.inj hj'
          injection hpair with hk hv
          subst hk; subst hv
          refine ⟨d, by simpa [hlen2] using hd, ?_, ?_⟩
          · rw [hlen2]
            exact hjd.symm
          · intro i hi
            rw [hlen2]
            exact isEmptyAt_set_nonempty (by simp [isEmptyE])
              (isEmptyAt_false_of_isPairAt (hpre i hi))
        · rw [set_getElem_ne _ hjj] at hj'
          obtain ⟨d2, hd2, hjd2, hpre2⟩ := hpath j' k2 v2 hj'
          refine ⟨d2, by simpa [hlen2] using hd2, ?_, ?_⟩
          · rw [hlen2]
            exact hjd2
          · intro i hi
            rw [hlen2]
            exact isEmptyAt_set_nonempty (by simp [isEmptyE]) (hpre2 i hi)
      obtain ⟨nt', hrec, hlen', hdels', hcount', hperm', hpath'⟩ :=
        ih (nt.set j (Entry.Pair k v)) hdels2 (by omega) (by omega) hpath2
      refine ⟨nt', ?_, by omega, hdels', by omega, ?_, hpath'⟩
      · rw [rehashAll, hfind]
        exact hrec
      · rw [pairsOf_cons_pair]
        exact hperm'.trans ((hperm2.append_left (pairsOf rest)).trans List.perm_middle)
    | Empty =>
      obtain ⟨nt', hrec, hlen', hdels', hcount', hperm', hpath'⟩ :=
        ih nt h1 (by rw [countPairs_cons] at h2; simpa [isPairE] using h2)
          (by rw [countPairs_cons] at h3; simpa [isPairE] using h3) hpath
      refine ⟨nt', hrec, hlen', hdels', ?_, ?_, hpath'⟩
      · rw [countPairs_cons]
        simpa [isPairE] using hcount'
      · rw [pairsOf_cons_empty]
        exact hperm'
    | Del =>
      obtain ⟨nt', hrec, hlen', hdels', hcount', hperm', hpath'⟩ :=
        ih nt h1 (by rw [countPairs_cons] at h2; simpa [isPairE] using h2)
          (by rw [countPairs_cons] at h3; simpa [isPairE] using h3) hpath
      refine ⟨nt', hrec, hlen', hdels', ?_, ?_, hpath'⟩
      · rw [countPairs_cons]
        simpa [isPairE] using hcount'
      · rw [pairsOf_cons_del]
        exact hperm'

theorem pathOk_replicate (hash : K → Nat) (n : Nat) :
    pathOk hash (List.replicate n (Entry.Empty : Entry K V)) := by
  intro j k v hj
  exfalso
  have hmem : (k, v) ∈ pairsOf (List.replicate n (Entry.Empty : Entry K V)) :=
    mem_pairsOf_iff.mpr ⟨j, hj⟩
  rw [pairsOf_replicate_empty] at hmem
  simp at hmem

/-- `resize` always terminates successfully: in both modes the target table
has room for every live pair.  It keeps `items`, zeroes `tombs`, produces the
documented capacity, and relocates exactly the live pairs. -/
theorem resize_spec (hash : K → Nat) (ro : Bool) (m : HashMap K V) :
    ∃ m', HashMap.resize hash ro m = some m' ∧
      m'.items = m.items ∧ m'.tombs = 0 ∧
      m'.table.length =
        (if ro then m.table.length
         else if m.table.length = 0 then 1 else 2 * m.table.length) ∧
      (pairsOf m'.table).Perm (pairsOf m.table) ∧
      countDels m'.table = 0 ∧
      countPairs m'.table = countPairs m.table ∧
      pathOk hash m'.table := by
  set ns := (if ro then m.table.length
             else if m.table.length = 0 then INITIAL_SIZE else 2 * m.table.length) with hns
  have h1 := countPairs_le_length m.table
  have hcp : countPairs m.table ≤ ns := by
    rw [hns]
    cases ro with
    | true => simpa using h1
    | false =>
      by_cases h0 : m.table.length = 0
      · simp [h0, INITIAL_SIZE]
        omega
      · simp [h0]
        omega
  have h3 : 0 < ns ∨ countPairs m.table = 0 := by
    by_cases h0 : m.table.length = 0
    · right
      omega
    · left
      rw [hns]
      cases ro with
      | true => simpa using Nat.pos_of_ne_zero h0
      | false =>
        simp [h0]
        omega
  obtain ⟨nt', hreh, hlen', hdels', hcount', hperm', hpath'⟩ :=
    rehashAll_spec hash m.table (List.replicate ns Entry.Empty)
      (countDels_replicate_empty ns)
      (by rw [countPairs_replicate_empty, List.length_replicate]; omega)
      (by rw [List.length_replicate]; exact h3)
      (pathOk_replicate hash ns)
  refine ⟨⟨nt', m.items, 0⟩, ?_, rfl, rfl, ?_, ?_, hdels', ?_, hpath'⟩
  · simp only [HashMap.resize]
    rw [← hns, hreh]
  · rw [hlen', List.length_replicate, hns]
    simp [INITIAL_SIZE]
  · simpa [pairsOf_replicate_empty] using hperm'
  · rw [hcount', countPairs_replicate_empty]
    omega

/-- `resize` preserves the invariant and the abstract map. -/
theorem resize_good (hash : K → Nat) {m m' : HashMap K V} (hg : Good hash m) {ro : Bool}
    (h : HashMap.resize hash ro m = some m') :
    Good hash m' ∧ (∀ k, lookupTable m'.table k = lookupTable m.table k) ∧
      m'.items = m.items ∧ m'.tombs = 0 ∧
      m'.table.length =
        (if ro then m.table.length
         else if m.table.length = 0 then 1 else 2 * m.table.length) := by
  obtain ⟨m2, hm2, hitems, htombs, hlen, hperm, hdels, hcount, hpath⟩ := resize_spec hash ro m
  rw [h] at hm2
  have hmm : m' = m2 := Option.some.inj hm2
  subst hmm
  refine ⟨⟨?_, ?_, ?_, hpath⟩, ?_, hitems, htombs, hlen⟩
  · rw [hitems, hg.items_eq, ← hcount]
  · rw [htombs, hdels]
  · have hkperm : (keysOf m'.table).Perm (keysOf m.table) := by
      simpa [keysOf] using hperm.map Prod.fst
    exact hkperm.nodup_iff.mpr hg.nodup
  · exact fun k => lookup_eq_of_perm hg.nodup hperm k

/-! ## Invariant preservation for single-slot writes -/

theorem pathOk_set_pair_samekey (hash : K → Nat) {t : List (Entry K V)} {j : Nat}
    {ek : K} {ev : V} (v : V) (hp : pathOk hash t) (hj : t[j]? = some (Entry.Pair ek ev)) :
    pathOk hash (t.set j (Entry.Pair ek v)) := by
  intro j' k2 v2 hj'
  have hlen : (t.set j (Entry.Pair ek v)).length = t.length := List.length_set t j _
  by_cases hjj : j' = j
  · subst hjj
    rw [set_getElem_self _ (getElem_lt_length hj)] at hj'
    have hpair := Option.some.inj hj'
    injection hpair with hk hv
    subst hk
    obtain ⟨d, hd, hjd, hpre⟩ := hp j' ek ev hj
    refine ⟨d, by omega, by rw [hlen]; exact hjd, ?_⟩
    intro i hi
    rw [hlen]
    exact isEmptyAt_set_nonempty (by simp [isEmptyE]) (hpre i hi)
  · rw [set_getElem_ne _ hjj] at hj'
    obtain ⟨d, hd, hjd, hpre⟩ := hp j' k2 v2 hj'
    refine ⟨d, by omega, by rw [hlen]; exact hjd, ?_⟩
    intro i hi
    rw [hlen]
    exact isEmptyAt_set_nonempty (by simp [isEmptyE]) (hpre i hi)

theorem pathOk_set_del (hash : K → Nat) {t : List (Entry K V)} (j : Nat)
    (hp : pathOk hash t) : pathOk hash (t.set j Entry.Del) := by
  by_cases hjlt : j < t.length
  · intro j' k2 v2 hj'
    have hlen : (t.set j Entry.Del).length = t.length := List.length_set t j _
    by_cases hjj : j' = j
    · subst hjj
      rw [set_getElem_self _ hjlt] at hj'
      exact absurd hj' (by simp)
    · rw [set_getElem_ne _ hjj] at hj'
      obtain ⟨d, hd, hjd, hpre⟩ := hp j' k2 v2 hj'
      refine ⟨d, by omega, by rw [hlen]; exact hjd, ?_⟩
      intro i hi
      rw [hlen]
      exact isEmptyAt_set_nonempty (by simp [isEmptyE]) (hpre i hi)
  · rw [List.set_eq_of_length_le (by omega)]
    exact hp

theorem pathOk_set_new_pair (hash : K → Nat) {t : List (Entry K V)} {k : K} (v : V) {e0 : Nat}
    (hp : pathOk hash t) (hn : 0 < t.length) (he0 : e0 < t.length)
    (hget : t[(hash k % t.length + e0) % t.length]? = some Entry.Empty)
    (hpre : ∀ i, i < e0 → isEmptyAt t ((hash k % t.length + i) % t.length) = false) :
    pathOk hash (t.set ((hash k % t.length + e0) % t.length) (Entry.Pair k v)) := by
  set j := (hash k % t.length + e0) % t.length with hjdef
  intro j' k2 v2 hj'
  have hlen : (t.set j (Entry.Pair k v)).length = t.length := List.length_set t j _
  have hjlt : j < t.length := by rw [hjdef]; exact Nat.mod_lt _ hn
  by_cases hjj : j' = j
  · subst hjj
    rw [set_getElem_self _ hjlt] at hj'
    have hpair := Option.some.inj hj'
    injection hpair with hk hv
    subst hk
    refine ⟨e0, by omega, by rw [hlen, hjdef], ?_⟩
    intro i hi
    rw [hlen]
    exact isEmptyAt_set_nonempty (by simp [isEmptyE]) (hpre i hi)
  · rw [set_getElem_ne _ hjj] at hj'
    obtain ⟨d, hd, hjd, hpre2⟩ := hp j' k2 v2 hj'
    refine ⟨d, by omega, by rw [hlen]; exact hjd, ?_⟩
    intro i hi
    rw [hlen]
    exact isEmptyAt_set_nonempty (by simp [isEmptyE]) (hpre2 i hi)

/-! ## The probe phases of insert, get and remove -/

theorem countPairs_pos_of_pair {t : List (Entry K V)} {j : Nat} {k : K} {v : V}
    (h : t[j]? = some (Entry.Pair k v)) : 0 < countPairs t := by
  have hmem : (k, v) ∈ pairsOf t := mem_pairsOf_iff.mpr ⟨j, h⟩
  have hlp := length_pairsOf t
  have hlen : 0 < (pairsOf t).length := List.length_pos.mpr (List.ne_nil_of_mem hmem)
  omega

theorem insertProbe_found (hash : K → Nat) {m1 : HashMap K V} {k : K} {oldv : V} (v : V)
    (hg : Good hash m1) (hn : 0 < m1.table.length)
    (hlk : lookupTable m1.table k = some oldv) :
    ∃ m', HashMap.insertProbe hash m1 k v = some (some oldv, m') ∧
      Good hash m' ∧ m'.table.length = m1.table.length ∧
      m'.items = m1.items ∧ m'.tombs = m1.tombs ∧
      lookupTable m'.table k = some v ∧
      ∀ k', k' ≠ k → lookupTable m'.table k' = lookupTable m1.table k' := by
  obtain ⟨j, hprobe, hj⟩ := probe_found_of_lookup hash hn hg.nodup hg.path hlk
  refine ⟨⟨m1.table.set j (Entry.Pair k v), m1.items, m1.tombs⟩, ?_, ?_, ?_, rfl, rfl, ?_, ?_⟩
  · simp only [HashMap.insertProbe, hprobe]
  · refine ⟨?_, ?_, ?_, ?_⟩
    · dsimp only
      have hset := countPairs_set (Entry.Pair k v) hj
      simp [isPairE] at hset
      rw [hg.items_eq]
      omega
    · dsimp only
      have hset := countDels_set (Entry.Pair k v) hj
      simp [isDelE] at hset
      rw [hg.tombs_eq]
      omega
    · rw [keysOf_set_pair_samekey v hj]
      exact hg.nodup
    · exact pathOk_set_pair_samekey hash v hg.path hj
  · exact List.length_set m1.table j _
  · exact lookup_set_pair_self v hg.nodup hj
  · intro k' hk'
    exact lookup_set_samekey_other v hg.nodup hj hk'

theorem insertProbe_absent (hash : K → Nat) {m1 : HashMap K V} {k : K} (v : V)
    (hg : Good hash m1) (hn : 0 < m1.table.length)
    (hlk : lookupTable m1.table k = none)
    (hroom : m1.items + m1.tombs < m1.table.length) :
    ∃ m', HashMap.insertProbe hash m1 k v = some (none, m') ∧
      Good hash m' ∧ m'.table.length = m1.table.length ∧
      m'.items = m1.items + 1 ∧ m'.tombs = m1.tombs ∧
      lookupTable m'.table k = some v ∧
      ∀ k', k' ≠ k → lookupTable m'.table k' = lookupTable m1.table k' := by
  have hhome : hash k % m1.table.length < m1.table.length := Nat.mod_lt _ hn
  have hfree : ∃ p : Nat, p < m1.table.length ∧ m1.table[p]? = some Entry.Empty := by
    apply exists_empty_slot
    rw [← hg.items_eq, ← hg.tombs_eq]
    exact hroom
  obtain ⟨j, e0, hprobe, hjE, he0, hje, hpre⟩ := probe_absent_of_empty hn hhome hlk hfree
  have hnotmem : k ∉ keysOf m1.table := lookupTable_eq_none_iff.mp hlk
  refine ⟨⟨m1.table.set j (Entry.Pair k v), m1.items + 1, m1.tombs⟩, ?_, ?_, ?_, rfl, rfl, ?_, ?_⟩
  · simp only [HashMap.insertProbe, hprobe]
  · refine ⟨?_, ?_, ?_, ?_⟩
    · dsimp only
      have hset := countPairs_set (Entry.Pair k v) hjE
      simp [isPairE, isEmptyE] at hset
      rw [hg.items_eq]
      omega
    · dsimp only
      have hset := countDels_set (Entry.Pair k v) hjE
      simp [isDelE, isEmptyE] at hset
      rw [hg.tombs_eq]
      omega
    · have hperm := keysOf_set_pair_perm (k := k) (v := v) hjE (by simp [isPairE])
      exact hperm.nodup_iff.mpr (List.nodup_cons.mpr ⟨hnotmem, hg.nodup⟩)
    · subst hje
      exact pathOk_set_new_pair hash v hg.path hn he0 hjE hpre
  · exact List.length_set m1.table j _
  · exact lookup_set_empty_self v hg.nodup hjE hnotmem
  · intro k' hk'
    exact lookup_set_empty_other v hg.nodup hjE hnotmem hk'

theorem insertProbe_panic (hash : K → Nat) {m1 : HashMap K V} {k : K} (v : V)
    (hlk : lookupTable m1.table k = none)
    (hfull : ∀ p : Nat, p < m1.table.length → isEmptyAt m1.table p = false) :
    HashMap.insertProbe hash m1 k v = none := by
  simp [HashMap.insertProbe, probe_none_of_full hlk hfull]

theorem getProbe_found (hash : K → Nat) {m1 : HashMap K V} {k : K} {v : V}
    (hg : Good hash m1) (hn : 0 < m1.table.length)
    (hlk : lookupTable m1.table k = some v) :
    HashMap.getProbe hash m1 k = some (some v, m1) := by
  obtain ⟨j, hprobe, hj⟩ := probe_found_of_lookup hash hn hg.nodup hg.path hlk
  simp [HashMap.getProbe, hprobe]

theorem getProbe_absent (hash : K → Nat) {m1 : HashMap K V} {k : K}
    (hg : Good hash m1) (hn : 0 < m1.table.length)
    (hlk : lookupTable m1.table k = none)
    (hroom : m1.items + m1.tombs < m1.table.length) :
    HashMap.getProbe hash m1 k = some (none, m1) := by
  have hhome : hash k % m1.table.length < m1.table.length := Nat.mod_lt _ hn
  have hfree : ∃ p : Nat, p < m1.table.length ∧ m1.table[p]? = some Entry.Empty := by
    apply exists_empty_slot
    rw [← hg.items_eq, ← hg.tombs_eq]
    exact hroom
  obtain ⟨j, e0, hprobe, hjE, he0, hje, hpre⟩ := probe_absent_of_empty hn hhome hlk hfree
  simp [HashMap.getProbe, hprobe]

theorem getProbe_panic (hash : K → Nat) {m1 : HashMap K V} {k : K}
    (hlk : lookupTable m1.table k = none)
    (hfull : ∀ p : Nat, p < m1.table.length → isEmptyAt m1.table p = false) :
    HashMap.getProbe hash m1 k = none := by
  simp [HashMap.getProbe, probe_none_of_full hlk hfull]

theorem removeProbe_found (hash : K → Nat) {m1 : HashMap K V} {k : K} {v : V}
    (hg : Good hash m1) (hn : 0 < m1.table.length)
    (hlk : lookupTable m1.table k = some v) :
    ∃ m', HashMap.removeProbe hash m1 k = some (some v, m') ∧
      Good hash m' ∧ m'.table.length = m1.table.length ∧
      m'.items = m1.items - 1 ∧ m'.tombs = m1.tombs + 1 ∧ 0 < m1.items ∧
      lookupTable m'.table k = none ∧
      ∀ k', k' ≠ k → lookupTable m'.table k' = lookupTable m1.table k' := by
  obtain ⟨j, hprobe, hj⟩ := probe_found_of_lookup hash hn hg.nodup hg.path hlk
  have hpos : 0 < countPairs m1.table := countPairs_pos_of_pair hj
  refine ⟨⟨m1.table.set j Entry.Del, m1.items - 1, m1.tombs + 1⟩, ?_, ?_, ?_, rfl, rfl, ?_, ?_, ?_⟩
  · simp only [HashMap.removeProbe, hprobe]
  · refine ⟨?_, ?_, ?_, ?_⟩
    · dsimp only
      have hset := countPairs_set Entry.Del hj
      simp [isPairE] at hset
      rw [hg.items_eq]
      omega
    · dsimp only
      have hset := countDels_set Entry.Del hj
      simp [isDelE] at hset
      rw [hg.tombs_eq]
      omega
    · exact hg.nodup.sublist (keysOf_set_del_sublist m1.table j)
    · exact pathOk_set_del hash j hg.path
  · exact List.length_set m1.table j _
  · rw [hg.items_eq]
    omega
  · exact lookup_set_del_self hg.nodup hj
  · intro k' hk'
    exact lookup_set_del_other hg.nodup hj hk'

theorem removeProbe_absent (hash : K → Nat) {m1 : HashMap K V} {k : K}
    (hg : Good hash m1) (hn : 0 < m1.table.length)
    (hlk : lookupTable m1.table k = none)
    (hroom : m1.items + m1.tombs < m1.table.length) :
    HashMap.removeProbe hash m1 k = some (none, m1) := by
  have hhome : hash k % m1.table.length < m1.table.length := Nat.mod_lt _ hn
  have hfree : ∃ p : Nat, p < m1.table.length ∧ m1.table[p]? = some Entry.Empty := by
    apply exists_empty_slot
    rw [← hg.items_eq, ← hg.tombs_eq]
    exact hroom
  obtain ⟨j, e0, hprobe, hjE, he0, hje, hpre⟩ := probe_absent_of_empty hn hhome hlk hfree
  simp [HashMap.removeProbe, hprobe]

theorem removeProbe_panic (hash : K → Nat) {m1 : HashMap K V} {k : K}
    (hlk : lookupTable m1.table k = none)
    (hfull : ∀ p : Nat, p < m1.table.length → isEmptyAt m1.table p = false) :
    HashMap.removeProbe hash m1 k = none := by
  simp [HashMap.removeProbe, probe_none_of_full hlk hfull]

/-! ## Top-level analysis of the operations -/

theorem countEmpties_pos_of_empty {t : List (Entry K V)} {p : Nat}
    (h : t[p]? = some Entry.Empty) : 0 < countEmpties t := by
  induction t generalizing p with
  | nil => simp at h
  | cons a t ih =>
    cases p with
    | zero =>
      simp only [List.getElem?_cons_zero, Option.some.injEq] at h
      subst h
      simp [countEmpties, isEmptyE]
    | succ p =>
      simp only [List.getElem?_cons_succ] at h
      have := ih h
      cases a <;> simp [countEmpties, isEmptyE] <;> omega

theorem full_of_no_room {t : List (Entry K V)}
    (h : t.length ≤ countPairs t + countDels t) :
    ∀ p : Nat, p < t.length → isEmptyAt t p = false := by
  intro p hp
  by_cases hE : isEmptyAt t p = true
  · have hpos := countEmpties_pos_of_empty (isEmptyAt_iff.mp hE)
    have := counts_sum t
    omega
  · simpa using hE

theorem lookup_nil (k : K) : lookupTable ([] : List (Entry K V)) k = none := rfl

theorem table_nil_of_length_zero {m : HashMap K V} (h : m.table.length = 0) :
    m.table = [] := List.length_eq_zero.mp h

/-- The declutter-check phase shared by `get` and `remove`: on a non-empty
table there is a single state `m1` (the decluttered or original state) on
which both probe phases run. -/
theorem check_branches (hash : K → Nat) {m : HashMap K V} (hg : Good hash m)
    (hn : 0 < m.table.length) (k : K) :
    ∃ m1, Good hash m1 ∧ (∀ k2, lookupTable m1.table k2 = lookupTable m.table k2) ∧
      m1.items = m.items ∧ m1.table.length = m.table.length ∧
      HashMap.get hash m k = HashMap.getProbe hash m1 k ∧
      HashMap.remove hash m k = HashMap.removeProbe hash m1 k ∧
      (3 * m.table.length / 4 < m.items + m.tombs →
        HashMap.resize hash true m = some m1 ∧ m1.tombs = 0) ∧
      (¬(3 * m.table.length / 4 < m.items + m.tombs) → m1 = m) ∧
      (m.items < m.table.length → m1.items + m1.tombs < m1.table.length) := by
  by_cases hcond : 3 * m.table.length / 4 < m.items + m.tombs
  · obtain ⟨m2, hm2, hitems, htombs, hlen, hperm, hdels, hcount, hpath⟩ :=
      resize_spec hash true m
    obtain ⟨hg2, hmodel, _, _, _⟩ := resize_good hash hg hm2
    have hlen2 : m2.table.length = m.table.length := by
      simpa using hlen
    refine ⟨m2, hg2, hmodel, hitems, hlen2, ?_, ?_, fun _ => ⟨hm2, htombs⟩, fun hc => absurd hcond hc, ?_⟩
    · rw [HashMap.get, if_neg (by omega)]
      simp only [if_pos hcond, hm2]
    · rw [HashMap.remove, if_neg (by omega)]
      simp only [if_pos hcond, hm2]
    · intro hroom
      omega
  · refine ⟨m, hg, fun k2 => rfl, rfl, rfl, ?_, ?_, fun hc => absurd hc hcond, fun _ => rfl, ?_⟩
    · rw [HashMap.get, if_neg (by omega)]
      simp only [if_neg hcond]
    · rw [HashMap.remove, if_neg (by omega)]
      simp only [if_neg hcond]
    · intro hroom
      omega

/-- The growth-check phase of `insert`. -/
theorem insert_branches (hash : K → Nat) {m : HashMap K V} (hg : Good hash m) (k : K) (v : V) :
    ∃ m1, Good hash m1 ∧ (∀ k2, lookupTable m1.table k2 = lookupTable m.table k2) ∧
      m1.items = m.items ∧
      HashMap.insert hash m k v = HashMap.insertProbe hash m1 k v ∧
      0 < m1.table.length ∧
      ((m.table.length = 0 ∨ 3 * m.table.length / 4 ≤ m.items) →
        HashMap.resize hash false m = some m1 ∧ m1.tombs = 0 ∧
        m1.table.length = (if m.table.length = 0 then 1 else 2 * m.table.length) ∧
        m1.items + m1.tombs < m1.table.length) ∧
      (¬(m.table.length = 0 ∨ 3 * m.table.length / 4 ≤ m.items) →
        m1 = m ∧ m1.table.length = m.table.length) := by
  have hcple := countPairs_le_length m.table
  by_cases hcond : m.table.length = 0 ∨ 3 * m.table.length / 4 ≤ m.items
  · obtain ⟨m2, hm2, hitems, htombs, hlen, hperm, hdels, hcount, hpath⟩ :=
      resize_spec hash false m
    obtain ⟨hg2, hmodel, _, _, _⟩ := resize_good hash hg hm2
    have hlen2 : m2.table.length = (if m.table.length = 0 then 1 else 2 * m.table.length) := by
      simpa using hlen
    have hroom : m2.items + m2.tombs < m2.table.length := by
      rw [hitems, htombs, hlen2, hg.items_eq]
      by_cases h0 : m.table.length = 0
      · have : m.table = [] := table_nil_of_length_zero h0
        rw [this]
        simp [countPairs, h0]
      · rw [if_neg h0]
        omega
    refine ⟨m2, hg2, hmodel, hitems, ?_, by omega, fun _ => ⟨hm2, htombs, hlen2, hroom⟩,
      fun hc => absurd hcond hc⟩
    rw [HashMap.insert]
    simp only [if_pos hcond, hm2]
  · have h0 : m.table.length ≠ 0 := fun hc => hcond (Or.inl hc)
    refine ⟨m, hg, fun k2 => rfl, rfl, ?_, by omega, fun hc => absurd hc hcond,
      fun _ => ⟨rfl, rfl⟩⟩
    rw [HashMap.insert]
    simp only [if_neg hcond]

/-- Any completed `insertProbe` keeps the capacity. -/
theorem insertProbe_length (hash : K → Nat) {m1 m' : HashMap K V} {k : K} {v : V} {r : Option V}
    (h : HashMap.insertProbe hash m1 k v = some (r, m')) :
    m'.table.length = m1.table.length := by
  rw [HashMap.insertProbe] at h
  cases hp : probe m1.table k (hash k % m1.table.length) 0 (m1.table.length + 2) with
  | none => rw [hp] at h; cases h
  | some pr =>
    rw [hp] at h
    cases pr with
    | foundAt j ek ev =>
      have := Option.some.inj h
      have hm : m' = ⟨m1.table.set j (Entry.Pair ek v), m1.items, m1.tombs⟩ :=
        (congrArg Prod.snd this).symm
      rw [hm]
      exact List.length_set m1.table j _
    | emptyAt j =>
      have := Option.some.inj h
      have hm : m' = ⟨m1.table.set j (Entry.Pair k v), m1.items + 1, m1.tombs⟩ :=
        (congrArg Prod.snd this).symm
      rw [hm]
      exact List.length_set m1.table j _

/-- Whatever a completed `get` returns, it is the abstract lookup, and the
state keeps the invariant and the abstract map. -/
theorem get_success (hash : K → Nat) {m m' : HashMap K V} {k : K} {r : Option V}
    (hg : Good hash m) (h : HashMap.get hash m k = some (r, m')) :
    r = lookupTable m.table k ∧ Good hash m' ∧
      (∀ k2, lookupTable m'.table k2 = lookupTable m.table k2) ∧
      m'.items = m.items ∧ m'.table.length = m.table.length := by
  by_cases hn : m.table.length = 0
  · rw [HashMap.get, if_pos hn] at h
    have hpm := Option.some.inj h
    have hr : r = none := (congrArg Prod.fst hpm).symm
    have hm : m' = m := (congrArg Prod.snd hpm).symm
    refine ⟨?_, ?_, ?_, ?_, ?_⟩
    · rw [hr, table_nil_of_length_zero hn, lookup_nil]
    · rw [hm]; exact hg
    · intro k2; rw [hm]
    · rw [hm]
    · rw [hm]
  · obtain ⟨m1, hg1, hmodel, hitems, hlen, hget, _hrem, _hdecl, _hndecl, hroom⟩ :=
      check_branches hash hg (by omega) k
    rw [hget] at h
    cases hlk : lookupTable m1.table k with
    | some v =>
      rw [getProbe_found hash hg1 (by omega) hlk] at h
      have hpm := Option.some.inj h
      have hr : r = some v := (congrArg Prod.fst hpm).symm
      have hm : m' = m1 := (congrArg Prod.snd hpm).symm
      subst hr; subst hm
      exact ⟨by rw [← hmodel k, hlk], hg1, hmodel, hitems, hlen⟩
    | none =>
      by_cases hroom2 : m1.items + m1.tombs < m1.table.length
      · rw [getProbe_absent hash hg1 (by omega) hlk hroom2] at h
        have hpm := Option.some.inj h
        have hr : r = none := (congrArg Prod.fst hpm).symm
        have hm : m' = m1 := (congrArg Prod.snd hpm).symm
        subst hr; subst hm
        exact ⟨by rw [← hmodel k, hlk], hg1, hmodel, hitems, hlen⟩
      · have hfull : ∀ p : Nat, p < m1.table.length → isEmptyAt m1.table p = false := by
          apply full_of_no_room
          rw [← hg1.items_eq, ← hg1.tombs_eq]
          omega
        rw [getProbe_panic hash hlk hfull] at h
        cases h

/-- `get` completes whenever the table is empty, has a free live slot, or the
key is present. -/
theorem get_total (hash : K → Nat) {m : HashMap K V} (k : K) (hg : Good hash m)
    (hcond : m.table.length = 0 ∨ m.items < m.table.length ∨
      lookupTable m.table k ≠ none) :
    ∃ m', HashMap.get hash m k = some (lookupTable m.table k, m') := by
  by_cases hn : m.table.length = 0
  · refine ⟨m, ?_⟩
    rw [HashMap.get, if_pos hn, table_nil_of_length_zero hn, lookup_nil]
  · obtain ⟨m1, hg1, hmodel, hitems, hlen, hget, _hrem, _hdecl, _hndecl, hroom⟩ :=
      check_branches hash hg (by omega) k
    rw [hget]
    cases hlk : lookupTable m1.table k with
    | some v =>
      rw [getProbe_found hash hg1 (by omega) hlk]
      exact ⟨m1, by rw [← hmodel k, hlk]⟩
    | none =>
      have hpres : lookupTable m.table k = none := by rw [← hmodel k]; exact hlk
      have hitems_lt : m.items < m.table.length := by
        rcases hcond with h0 | hlt | hne
        · omega
        · exact hlt
        · exact absurd hpres hne
      rw [getProbe_absent hash hg1 (by omega) hlk (hroom hitems_lt)]
      exact ⟨m1, by rw [hpres]⟩

/-- Whatever a completed `remove` returns, it is the abstract lookup; a found
pair is tombstoned, the counters move accordingly, other keys are untouched. -/
theorem remove_success (hash : K → Nat) {m m' : HashMap K V} {k : K} {r : Option V}
    (hg : Good hash m) (h : HashMap.remove hash m k = some (r, m')) :
    r = lookupTable m.table k ∧ Good hash m' ∧
      lookupTable m'.table k = none ∧
      (∀ k2, k2 ≠ k → lookupTable m'.table k2 = lookupTable m.table k2) ∧
      (r = none → m'.items = m.items ∧
        ∀ k2, lookupTable m'.table k2 = lookupTable m.table k2) ∧
      (r ≠ none → m'.items + 1 = m.items ∧ 0 < m.items) ∧
      m'.table.length = m.table.length := by
  by_cases hn : m.table.length = 0
  · rw [HashMap.remove, if_pos hn] at h
    have hpm := Option.some.inj h
    have hr : r = none := (congrArg Prod.fst hpm).symm
    have hm : m' = m := (congrArg Prod.snd hpm).symm
    have hnil : lookupTable m.table k = none := by
      rw [table_nil_of_length_zero hn, lookup_nil]
    refine ⟨?_, ?_, ?_, ?_, ?_, ?_, ?_⟩
    · rw [hr, hnil]
    · rw [hm]; exact hg
    · rw [hm]; exact hnil
    · intro k2 _; rw [hm]
    · intro _; rw [hm]; exact ⟨rfl, fun k2 => rfl⟩
    · intro hc; rw [hr] at hc; exact absurd rfl hc
    · rw [hm]
  · obtain ⟨m1, hg1, hmodel, hitems, hlen, _hget, hrem, _hdecl, _hndecl, hroom⟩ :=
      check_branches hash hg (by omega) k
    rw [hrem] at h
    cases hlk : lookupTable m1.table k with
    | some v =>
      obtain ⟨m2, heq, hg2, hlen2, hitems2, htombs2, hpos, hlk2, hother2⟩ :=
        removeProbe_found hash hg1 (by omega) hlk
      rw [heq] at h
      have hpm := Option.some.inj h
      have hr : r = some v := (congrArg Prod.fst hpm).symm
      have hm : m' = m2 := (congrArg Prod.snd hpm).symm
      subst hr; subst hm
      refine ⟨by rw [← hmodel k, hlk], hg2, hlk2, ?_, ?_, ?_, by omega⟩
      · intro k2 hk2
        rw [hother2 k2 hk2, hmodel k2]
      · intro hc
        cases hc
      · intro _
        constructor
        · omega
        · omega
    | none =>
      by_cases hroom2 : m1.items + m1.tombs < m1.table.length
      · rw [removeProbe_absent hash hg1 (by omega) hlk hroom2] at h
        have hpm := Option.some.inj h
        have hr : r = none := (congrArg Prod.fst hpm).symm
        have hm : m' = m1 := (congrArg Prod.snd hpm).symm
        subst hr; subst hm
        refine ⟨by rw [← hmodel k, hlk], hg1, hlk, fun k2 _ => hmodel k2,
          fun _ => ⟨hitems, hmodel⟩, fun hc => absurd rfl hc, hlen⟩
      · have hfull : ∀ p : Nat, p < m1.table.length → isEmptyAt m1.table p = false := by
          apply full_of_no_room
          rw [← hg1.items_eq, ← hg1.tombs_eq]
          omega
        rw [removeProbe_panic hash hlk hfull] at h
        cases h

/-- `remove` completes under the same conditions as `get`. -/
theorem remove_total (hash : K → Nat) {m : HashMap K V} (k : K) (hg : Good hash m)
    (hcond : m.table.length = 0 ∨ m.items < m.table.length ∨
      lookupTable m.table k ≠ none) :
    ∃ m', HashMap.remove hash m k = some (lookupTable m.table k, m') := by
  by_cases hn : m.table.length = 0
  · refine ⟨m, ?_⟩
    rw [HashMap.remove, if_pos hn, table_nil_of_length_zero hn, lookup_nil]
  · obtain ⟨m1, hg1, hmodel, hitems, hlen, _hget, hrem, _hdecl, _hndecl, hroom⟩ :=
      check_branches hash hg (by omega) k
    rw [hrem]
    cases hlk : lookupTable m1.table k with
    | some v =>
      obtain ⟨m2, heq, _⟩ := removeProbe_found hash hg1 (by omega) hlk
      rw [heq]
      exact ⟨m2, by rw [← hmodel k, hlk]⟩
    | none =>
      have hpres : lookupTable m.table k = none := by rw [← hmodel k]; exact hlk
      have hitems_lt : m.items < m.table.length := by
        rcases hcond with h0 | hlt | hne
        · omega
        · exact hlt
        · exact absurd hpres hne
      rw [removeProbe_absent hash hg1 (by omega) hlk (hroom hitems_lt)]
      exact ⟨m1, by rw [hpres]⟩

/-- Whatever a completed `insert` returns, it is the previous abstract value;
the key now maps to the new value and other keys are untouched. -/
theorem insert_success (hash : K → Nat) {m m' : HashMap K V} {k : K} {v : V} {r : Option V}
    (hg : Good hash m) (h : HashMap.insert hash m k v = some (r, m')) :
    r = lookupTable m.table k ∧ Good hash m' ∧
      lookupTable m'.table k = some v ∧
      (∀ k2, k2 ≠ k → lookupTable m'.table k2 = lookupTable m.table k2) ∧
      (r = none → m'.items = m.items + 1) ∧
      (r ≠ none → m'.items = m.items) := by
  obtain ⟨m1, hg1, hmodel, hitems, hins, hn1, _hgrow, _hnogrow⟩ := insert_branches hash hg k v
  rw [hins] at h
  cases hlk : lookupTable m1.table k with
  | some oldv =>
    obtain ⟨m2, heq, hg2, hlen2, hitems2, htombs2, hlk2, hother2⟩ :=
      insertProbe_found hash v hg1 hn1 hlk
    rw [heq] at h
    have hpm := Option.some.inj h
    have hr : r = some oldv := (congrArg Prod.fst hpm).symm
    have hm : m' = m2 := (congrArg Prod.snd hpm).symm
    subst hr; subst hm
    refine ⟨by rw [← hmodel k, hlk], hg2, hlk2, ?_, ?_, ?_⟩
    · intro k2 hk2
      rw [hother2 k2 hk2, hmodel k2]
    · intro hc
      cases hc
    · intro _
      omega
  | none =>
    by_cases hroom2 : m1.items + m1.tombs < m1.table.length
    · obtain ⟨m2, heq, hg2, hlen2, hitems2, htombs2, hlk2, hother2⟩ :=
        insertProbe_absent hash v hg1 hn1 hlk hroom2
      rw [heq] at h
      have hpm := Option.some.inj h
      have hr : r = none := (congrArg Prod.fst hpm).symm
      have hm : m' = m2 := (congrArg Prod.snd hpm).symm
      subst hr; subst hm
      refine ⟨by rw [← hmodel k, hlk], hg2, hlk2, ?_, ?_, ?_⟩
      · intro k2 hk2
        rw [hother2 k2 hk2, hmodel k2]
      · intro _
        omega
      · intro hc
        exact absurd rfl hc
    · have hfull : ∀ p : Nat, p < m1.table.length → isEmptyAt m1.table p = false := by
        apply full_of_no_room
        rw [← hg1.items_eq, ← hg1.tombs_eq]
        omega
      rw [insertProbe_panic hash v hlk hfull] at h
      cases h

/-- `insert` completes whenever it grows, the key is present, or the table has
a free (`Empty`) slot. -/
theorem insert_total (hash : K → Nat) {m : HashMap K V} (k : K) (v : V) (hg : Good hash m)
    (hcond : (m.table.length = 0 ∨ 3 * m.table.length / 4 ≤ m.items) ∨
      lookupTable m.table k ≠ none ∨ m.items + m.tombs < m.table.length) :
    ∃ m', HashMap.insert hash m k v = some (lookupTable m.table k, m') := by
  obtain ⟨m1, hg1, hmodel, hitems, hins, hn1, hgrow, hnogrow⟩ := insert_branches hash hg k v
  rw [hins]
  cases hlk : lookupTable m1.table k with
  | some oldv =>
    obtain ⟨m2, heq, _⟩ := insertProbe_found hash v hg1 hn1 hlk
    rw [heq]
    exact ⟨m2, by rw [← hmodel k, hlk]⟩
  | none =>
    have hpres : lookupTable m.table k = none := by rw [← hmodel k]; exact hlk
    have hroom2 : m1.items + m1.tombs < m1.table.length := by
      by_cases hc : m.table.length = 0 ∨ 3 * m.table.length / 4 ≤ m.items
      · exact (hgrow hc).2.2.2
      · obtain ⟨hm1, hlen1⟩ := hnogrow hc
        subst hm1
        rcases hcond with hc' | hne | hlt
        · exact absurd hc' hc
        · exact absurd hpres hne
        · exact hlt
    obtain ⟨m2, heq, _⟩ := insertProbe_absent hash v hg1 hn1 hlk hroom2
    rw [heq]
    exact ⟨m2, by rw [hpres]⟩

/-- `contains_key` is a completed `get` with `isSome` applied to the result. -/
theorem contains_inv (hash : K → Nat) {m m' : HashMap K V} {k : K} {b : Bool}
    (h : HashMap.contains_key hash m k = some (b, m')) :
    ∃ r, HashMap.get hash m k = some (r, m') ∧ b = r.isSome := by
  rw [HashMap.contains_key] at h
  cases hget : HashMap.get hash m k with
  | none => rw [hget] at h; cases h
  | some pm =>
    obtain ⟨r0, m0⟩ := pm
    rw [hget] at h
    have hpm := Option.some.inj h
    have hm : m' = m0 := (congrArg Prod.snd hpm).symm
    exact ⟨r0, by rw [hm], (congrArg Prod.fst hpm).symm⟩

theorem contains_total (hash : K → Nat) {m : HashMap K V} (k : K) (hg : Good hash m)
    (hcond : m.table.length = 0 ∨ m.items < m.table.length ∨
      lookupTable m.table k ≠ none) :
    ∃ m', HashMap.contains_key hash m k =
      some ((lookupTable m.table k).isSome, m') := by
  obtain ⟨m', hget⟩ := get_total hash k hg hcond
  refine ⟨m', ?_⟩
  rw [HashMap.contains_key, hget]

/-- Every reachable state satisfies the bookkeeping invariant. -/
theorem reachable_good (hash : K → Nat) {m : HashMap K V} (h : Reachable hash m) :
    Good hash m := by
  induction h with
  | new =>
    refine ⟨rfl, rfl, ?_, ?_⟩
    · simp [keysOf, pairsOf, HashMap.new]
    · intro j k v hj
      simp [HashMap.new] at hj
  | insert_step m k v r m' hr heq ih => exact (insert_success hash ih heq).2.1
  | get_step m k r m' hr heq ih => exact (get_success hash ih heq).2.1
  | contains_step m k r m' hr heq ih =>
    obtain ⟨r0, hget, hb⟩ := contains_inv hash heq
    exact (get_success hash ih hget).2.1
  | remove_step m k r m' hr heq ih => exact (remove_success hash ih heq).2.1

/-! ## Concrete reachable states used by witnesses and counterexamples

All concrete traces use `K = V = Nat` with the identity hash, a legitimate
instance of the "any deterministic hash function" contract. -/

theorem reachable_p00 :
    Reachable (fun n => n) (⟨[Entry.Pair 0 0], 1, 0⟩ : HashMap Nat Nat) :=
  Reachable.insert_step HashMap.new 0 0 none ⟨[Entry.Pair 0 0], 1, 0⟩ Reachable.new (by decide)

theorem reachable_del_state :
    Reachable (fun n => n) (⟨[Entry.Del], 0, 1⟩ : HashMap Nat Nat) :=
  Reachable.remove_step ⟨[Entry.Pair 0 0], 1, 0⟩ 0 (some 0) ⟨[Entry.Del], 0, 1⟩
    reachable_p00 (by decide)

theorem reachable_c6_state :
    Reachable (fun n => n)
      (⟨[Entry.Pair 4 4, Entry.Del, Entry.Pair 2 2, Entry.Pair 3 3], 3, 1⟩ :
        HashMap Nat Nat) := by
  have s1 : Reachable (fun n => n) (⟨[Entry.Pair 1 1], 1, 0⟩ : HashMap Nat Nat) :=
    Reachable.insert_step HashMap.new 1 1 none _ Reachable.new (by decide)
  have s2 : Reachable (fun n => n)
      (⟨[Entry.Pair 2 2, Entry.Pair 1 1], 2, 0⟩ : HashMap Nat Nat) :=
    Reachable.insert_step _ 2 2 none _ s1 (by decide)
  have s3 : Reachable (fun n => n)
      (⟨[Entry.Empty, Entry.Pair 1 1, Entry.Pair 2 2, Entry.Pair 3 3], 3, 0⟩ :
        HashMap Nat Nat) :=
    Reachable.insert_step _ 3 3 none _ s2 (by decide)
  have s4 : Reachable (fun n => n)
      (⟨[Entry.Empty, Entry.Del, Entry.Pair 2 2, Entry.Pair 3 3], 2, 1⟩ :
        HashMap Nat Nat) :=
    Reachable.remove_step _ 1 (some 1) _ s3 (by decide)
  exact Reachable.insert_step _ 4 4 none _ s4 (by decide)

/-! ## The claims -/

/-- C1: the claim says the probe-count safety fence (`panic!("Infinite
loop!")`) is never triggered by any sequence of operations from a new table.
The code violates this: after a single `insert`, a `get` of any other key
probes the one-slot table forever and hits the fence (the declutter rehash
runs but cannot create an `Empty` slot in a table whose only slot is live).
This theorem evaluates the embedded code on that two-operation trace: the
`none` result is exactly the panic. -/
theorem claim_C1_fence_triggered :
    HashMap.insert (fun n => n) (HashMap.new : HashMap Nat Nat) 0 0 =
      some (none, ⟨[Entry.Pair 0 0], 1, 0⟩) ∧
    HashMap.get (fun n => n) (⟨[Entry.Pair 0 0], 1, 0⟩ : HashMap Nat Nat) 1 = none :=
  ⟨by decide, by decide⟩

/-- C7: `get`, `contains_key` and `remove` on a freshly constructed
(zero-capacity) table report absence, allocate nothing and change no
counter: the resulting state is exactly `HashMap.new` again. -/
theorem claim_C7_empty_table (hash : K → Nat) (k : K) :
    HashMap.get hash (HashMap.new : HashMap K V) k = some (none, HashMap.new) ∧
    HashMap.contains_key hash (HashMap.new : HashMap K V) k = some (false, HashMap.new) ∧
    HashMap.remove hash (HashMap.new : HashMap K V) k = some (none, HashMap.new) :=
  ⟨rfl, rfl, rfl⟩

/-- C8: a growth resize always completes, sets the new capacity to
`max 1 (2 * old_capacity)` (hence the sequence 1, 2, 4, 8, … from an empty
table), drops all tombstones, preserves exactly the live pairs (as a
multiset), and leaves `items` unchanged. -/
theorem claim_C8_growth (hash : K → Nat) (m : HashMap K V) :
    ∃ m', HashMap.resize hash false m = some m' ∧
      m'.table.length = max 1 (2 * m.table.length) ∧
      m'.tombs = 0 ∧ m'.items = m.items ∧
      (pairsOf m'.table).Perm (pairsOf m.table) := by
  obtain ⟨m', h, hitems, htombs, hlen, hperm, _, _, _⟩ := resize_spec hash false m
  refine ⟨m', h, ?_, htombs, hitems, hperm⟩
  simp only [Bool.false_eq_true, if_false] at hlen
  rw [hlen]
  by_cases h0 : m.table.length = 0
  · simp [h0]
  · rw [if_neg h0]
    omega

/-- C9: in every reachable state, `items ≤ capacity`,
`tombs ≤ capacity - items` (the lower bounds `0 ≤ _` are trivial in ℕ), and
at most one `Pair` slot holds any given key. -/
theorem claim_C9_invariants (hash : K → Nat) {m : HashMap K V} (hr : Reachable hash m) :
    m.items ≤ m.table.length ∧ m.tombs ≤ m.table.length - m.items ∧
    ∀ (i j : Nat) (k : K) (v v' : V),
      m.table[i]? = some (Entry.Pair k v) → m.table[j]? = some (Entry.Pair k v') → i = j := by
  have hg := reachable_good hash hr
  have hsum := counts_sum m.table
  refine ⟨?_, ?_, ?_⟩
  · have := countPairs_le_length m.table
    rw [hg.items_eq]
    omega
  · rw [hg.items_eq, hg.tombs_eq]
    omega
  · intro i j k v v' hi hj
    exact nodup_pair_unique hg.nodup hi hj

theorem claim_C9_invariants_witness :
    (⟨[Entry.Del], 0, 1⟩ : HashMap Nat Nat).items ≤
        (⟨[Entry.Del], 0, 1⟩ : HashMap Nat Nat).table.length ∧
      (⟨[Entry.Del], 0, 1⟩ : HashMap Nat Nat).tombs ≤
        (⟨[Entry.Del], 0, 1⟩ : HashMap Nat Nat).table.length -
          (⟨[Entry.Del], 0, 1⟩ : HashMap Nat Nat).items :=
  ⟨(claim_C9_invariants (fun n => n) reachable_del_state).1,
   (claim_C9_invariants (fun n => n) reachable_del_state).2.1⟩

/-- C10: in every reachable state the `items` counter equals the number of
`Pair` slots and the `tombs` counter the number of `Del` slots. -/
theorem claim_C10_counters (hash : K → Nat) {m : HashMap K V} (hr : Reachable hash m) :
    m.items = countPairs m.table ∧ m.tombs = countDels m.table :=
  ⟨(reachable_good hash hr).items_eq, (reachable_good hash hr).tombs_eq⟩

theorem claim_C10_counters_witness :
    (⟨[Entry.Del], 0, 1⟩ : HashMap Nat Nat).items =
        countPairs (⟨[Entry.Del], 0, 1⟩ : HashMap Nat Nat).table ∧
      (⟨[Entry.Del], 0, 1⟩ : HashMap Nat Nat).tombs =
        countDels (⟨[Entry.Del], 0, 1⟩ : HashMap Nat Nat).table :=
  claim_C10_counters (fun n => n) reachable_del_state

/-- C2 (amended): `insert` performs a growth resize — observable as the
capacity becoming `max 1 (2·capacity)`, which never equals the old capacity —
iff the table has zero capacity or `items ≥ 3·capacity/4` with *flooring*
integer division (the source expression `3 * len / 4`), not the ceiling the
claim states; and the growth happens before probing: the probe phase runs on
the post-growth state. -/
theorem claim_C2_growth_condition (hash : K → Nat) {m m' : HashMap K V} {k : K} {v : V}
    {r : Option V} (h : HashMap.insert hash m k v = some (r, m')) :
    ((m.table.length = 0 ∨ 3 * m.table.length / 4 ≤ m.items) ↔
      m'.table.length = max 1 (2 * m.table.length)) ∧
    (¬(m.table.length = 0 ∨ 3 * m.table.length / 4 ≤ m.items) →
      m'.table.length = m.table.length) ∧
    ((m.table.length = 0 ∨ 3 * m.table.length / 4 ≤ m.items) →
      ∃ m1, HashMap.resize hash false m = some m1 ∧
        m1.table.length = max 1 (2 * m.table.length) ∧
        HashMap.insertProbe hash m1 k v = some (r, m')) := by
  by_cases hcond : m.table.length = 0 ∨ 3 * m.table.length / 4 ≤ m.items
  · obtain ⟨m2, hm2, hitems, htombs, hlen, hperm, hdels, hcount, hpath⟩ :=
      resize_spec hash false m
    rw [HashMap.insert] at h
    simp only [if_pos hcond, hm2] at h
    have hmax : m2.table.length = max 1 (2 * m.table.length) := by
      simp only [Bool.false_eq_true, if_false] at hlen
      rw [hlen]
      by_cases h0 : m.table.length = 0
      · simp [h0]
      · rw [if_neg h0]
        omega
    have hlen' : m'.table.length = m2.table.length := insertProbe_length hash h
    refine ⟨⟨fun _ => by rw [hlen', hmax], fun _ => hcond⟩,
      fun hc => absurd hcond hc, fun _ => ⟨m2, hm2, hmax, h⟩⟩
  · rw [HashMap.insert] at h
    simp only [if_neg hcond] at h
    have hlen' : m'.table.length = m.table.length := insertProbe_length hash h
    have h0 : m.table.length ≠ 0 := fun hc => hcond (Or.inl hc)
    refine ⟨⟨fun hc => absurd hc hcond, ?_⟩, fun _ => hlen', fun hc => absurd hc hcond⟩
    intro hmax
    exfalso
    rw [hlen'] at hmax
    omega

theorem claim_C2_growth_condition_witness :
    (⟨[Entry.Pair 0 0], 1, 0⟩ : HashMap Nat Nat).table.length =
      max 1 (2 * (HashMap.new : HashMap Nat Nat).table.length) :=
  (@claim_C2_growth_condition Nat Nat _ (fun n => n) HashMap.new
    ⟨[Entry.Pair 0 0], 1, 0⟩ 0 0 none (by decide)).1.mp (by decide)

/-- C2 counterexample: at the reachable state `{table := [Del], items := 0,
tombs := 1}` (insert a key, then remove it) the code grows — the capacity
doubles from 1 to 2 — although the table is non-empty and
`items = 0 < 1 = ceil(3/4 · capacity)`: growth happens without the condition
claimed (zero capacity or `items ≥ ceil(3/4 · capacity)`), refuting the
claimed "if and only if" with the ceiling threshold. -/
theorem claim_C2_counterexample :
    Reachable (fun n => n) (⟨[Entry.Del], 0, 1⟩ : HashMap Nat Nat) ∧
    HashMap.insert (fun n => n) (⟨[Entry.Del], 0, 1⟩ : HashMap Nat Nat) 5 5 =
      some (none, ⟨[Entry.Empty, Entry.Pair 5 5], 1, 0⟩) ∧
    ¬((⟨[Entry.Del], 0, 1⟩ : HashMap Nat Nat).table.length = 0 ∨
      (3 * (⟨[Entry.Del], 0, 1⟩ : HashMap Nat Nat).table.length + 3) / 4 ≤
        (⟨[Entry.Del], 0, 1⟩ : HashMap Nat Nat).items) ∧
    (⟨[Entry.Empty, Entry.Pair 5 5], 1, 0⟩ : HashMap Nat Nat).table.length =
      max 1 (2 * (⟨[Entry.Del], 0, 1⟩ : HashMap Nat Nat).table.length) :=
  ⟨reachable_del_state, by decide, by decide, by decide⟩

/-- C3 (amended): `get` and `remove` declutter iff the table is non-empty and
`items + tombs > 3·capacity/4` with *flooring* division (the source
expression), not the ceiling; after the declutter `tombs` is 0; and a `get`
on an absent key terminates with absence provided the table is not entirely
live (`items < capacity` — without this proviso the probe hits the safety
fence, see C1). -/
theorem claim_C3_declutter (hash : K → Nat) {m : HashMap K V} (k : K)
    (hg : Good hash m) (hn : m.table.length ≠ 0) :
    ((3 * m.table.length / 4 < m.items + m.tombs →
        ∃ md, HashMap.resize hash true m = some md ∧ md.tombs = 0 ∧
          HashMap.get hash m k = HashMap.getProbe hash md k ∧
          HashMap.remove hash m k = HashMap.removeProbe hash md k) ∧
      (¬(3 * m.table.length / 4 < m.items + m.tombs) →
        HashMap.get hash m k = HashMap.getProbe hash m k ∧
        HashMap.remove hash m k = HashMap.removeProbe hash m k)) ∧
    (lookupTable m.table k = none → m.items < m.table.length →
      ∃ m', HashMap.get hash m k = some (none, m') ∧
        (3 * m.table.length / 4 < m.items + m.tombs → m'.tombs = 0)) := by
  obtain ⟨m1, hg1, hmodel, hitems, hlen, hget, hrem, hdecl, hndecl, hroom⟩ :=
    check_branches hash hg (by omega) k
  refine ⟨⟨?_, ?_⟩, ?_⟩
  · intro hc
    obtain ⟨hres, htombs⟩ := hdecl hc
    exact ⟨m1, hres, htombs, hget, hrem⟩
  · intro hc
    have hm1 := hndecl hc
    rw [hm1] at hget hrem
    exact ⟨hget, hrem⟩
  · intro habs hlt
    have hlk1 : lookupTable m1.table k = none := by rw [hmodel k]; exact habs
    rw [hget, getProbe_absent hash hg1 (by omega) hlk1 (hroom hlt)]
    exact ⟨m1, rfl, fun hc => (hdecl hc).2⟩

theorem claim_C3_declutter_witness :
    ∃ md, HashMap.resize (fun n => n) true (⟨[Entry.Pair 0 0], 1, 0⟩ : HashMap Nat Nat) =
        some md ∧ md.tombs = 0 ∧
      HashMap.get (fun n => n) (⟨[Entry.Pair 0 0], 1, 0⟩ : HashMap Nat Nat) 1 =
        HashMap.getProbe (fun n => n) md 1 ∧
      HashMap.remove (fun n => n) (⟨[Entry.Pair 0 0], 1, 0⟩ : HashMap Nat Nat) 1 =
        HashMap.removeProbe (fun n => n) md 1 :=
  (claim_C3_declutter (fun n => n) 1
    (reachable_good (fun n => n) reachable_p00) (by decide)).1.1 (by decide)

/-- C3 counterexample: at the reachable state `{table := [Del], items := 0,
tombs := 1}` the code declutters — `get` of an absent key returns the rebuilt
state `{table := [Empty], items := 0, tombs := 0}` — although
`items + tombs = 1` does not exceed `ceil(3/4 · capacity) = 1`: the claimed
"if and only if" with the ceiling threshold is false on the code. -/
theorem claim_C3_counterexample :
    Reachable (fun n => n) (⟨[Entry.Del], 0, 1⟩ : HashMap Nat Nat) ∧
    HashMap.get (fun n => n) (⟨[Entry.Del], 0, 1⟩ : HashMap Nat Nat) 5 =
      some (none, ⟨[Entry.Empty], 0, 0⟩) ∧
    ¬((3 * (⟨[Entry.Del], 0, 1⟩ : HashMap Nat Nat).table.length + 3) / 4 <
        (⟨[Entry.Del], 0, 1⟩ : HashMap Nat Nat).items +
        (⟨[Entry.Del], 0, 1⟩ : HashMap Nat Nat).tombs) ∧
    (⟨[Entry.Empty], 0, 0⟩ : HashMap Nat Nat) ≠ ⟨[Entry.Del], 0, 1⟩ :=
  ⟨reachable_del_state, by decide, by decide, by decide⟩

/-- C4 (amended): a `remove` that finds no live pair returns the absence
marker, leaves `items` and every live pair unchanged, and mutates nothing
*beyond the declutter rehash of its check phase*: when the declutter does not
trigger the state is returned untouched; when it triggers the result is
exactly the decluttered state, whose `tombs` is 0. -/
theorem claim_C4_remove_no_match (hash : K → Nat) {m m' : HashMap K V} {k : K}
    (hg : Good hash m) (h : HashMap.remove hash m k = some (none, m')) :
    lookupTable m.table k = none ∧ m'.items = m.items ∧
      (∀ k2, lookupTable m'.table k2 = lookupTable m.table k2) ∧
      (¬(m.table.length ≠ 0 ∧ 3 * m.table.length / 4 < m.items + m.tombs) → m' = m) ∧
      ((m.table.length ≠ 0 ∧ 3 * m.table.length / 4 < m.items + m.tombs) →
        HashMap.resize hash true m = some m' ∧ m'.tombs = 0) := by
  by_cases hn : m.table.length = 0
  · rw [HashMap.remove, if_pos hn] at h
    have hpm := Option.some.inj h
    have hm : m' = m := (congrArg Prod.snd hpm).symm
    have habs : lookupTable m.table k = none := by
      rw [table_nil_of_length_zero hn, lookup_nil]
    exact ⟨habs, by rw [hm], fun k2 => by rw [hm], fun _ => hm, fun hc => absurd hn hc.1⟩
  · obtain ⟨m1, hg1, hmodel, hitems, hlen, _hget, hrem, hdecl, hndecl, hroom⟩ :=
      check_branches hash hg (by omega) k
    rw [hrem] at h
    cases hlk : lookupTable m1.table k with
    | some v =>
      obtain ⟨m2, heq, _⟩ := removeProbe_found hash hg1 (by omega) hlk
      rw [heq] at h
      have hbad := congrArg Prod.fst (Option.some.inj h)
      simp at hbad
    | none =>
      by_cases hroom2 : m1.items + m1.tombs < m1.table.length
      · rw [removeProbe_absent hash hg1 (by omega) hlk hroom2] at h
        have hm : m' = m1 := (congrArg Prod.snd (Option.some.inj h)).symm
        have habs : lookupTable m.table k = none := by rw [← hmodel k]; exact hlk
        refine ⟨habs, by rw [hm, hitems], fun k2 => by rw [hm]; exact hmodel k2, ?_, ?_⟩
        · intro hc
          have hnd : ¬(3 * m.table.length / 4 < m.items + m.tombs) := fun hd => hc ⟨hn, hd⟩
          rw [hm, hndecl hnd]
        · intro hc
          obtain ⟨hres, htombs⟩ := hdecl hc.2
          rw [hm]
          exact ⟨hres, htombs⟩
      · have hfull : ∀ p : Nat, p < m1.table.length → isEmptyAt m1.table p = false := by
          apply full_of_no_room
          rw [← hg1.items_eq, ← hg1.tombs_eq]
          omega
        rw [removeProbe_panic hash hlk hfull] at h
        cases h

theorem claim_C4_remove_no_match_witness :
    (⟨[Entry.Empty], 0, 0⟩ : HashMap Nat Nat).items =
      (⟨[Entry.Del], 0, 1⟩ : HashMap Nat Nat).items :=
  (@claim_C4_remove_no_match Nat Nat _ (fun n => n) ⟨[Entry.Del], 0, 1⟩
    ⟨[Entry.Empty], 0, 0⟩ 5
    (reachable_good (fun n => n) reachable_del_state) (by decide)).2.1

/-- C4 counterexample: at the reachable state `{table := [Del], items := 0,
tombs := 1}` a `remove` of an absent key returns the absence marker but
*does* mutate the table: the declutter rehash replaces the tombstone by
`Empty` and resets `tombs` to 0, so "returns None with no mutation" is false
on the code. -/
theorem claim_C4_counterexample :
    Reachable (fun n => n) (⟨[Entry.Del], 0, 1⟩ : HashMap Nat Nat) ∧
    HashMap.remove (fun n => n) (⟨[Entry.Del], 0, 1⟩ : HashMap Nat Nat) 5 =
      some (none, ⟨[Entry.Empty], 0, 0⟩) ∧
    (⟨[Entry.Empty], 0, 0⟩ : HashMap Nat Nat) ≠ ⟨[Entry.Del], 0, 1⟩ :=
  ⟨reachable_del_state, by decide, by decide⟩

/-- C5: round-trip semantics on every reachable state.  Each operation that
completes refines the abstract partial map `model`: a completed `get` returns
the current binding of the key and changes no binding (so the value an
`insert` stored is returned by `get` until the key is removed — operations on
other keys leave the binding untouched by the other-key clauses); a completed
`insert k v` returns the previous binding and makes `get k` return `v`; a
successful `remove k` returns the removed value, after which `get`,
`contains_key` and a further `remove` on `k` all complete and report
absence. -/
theorem claim_C5_roundtrip (hash : K → Nat) {m : HashMap K V} (k : K) (v : V)
    (hr : Reachable hash m) :
    (∀ r m', HashMap.get hash m k = some (r, m') →
      r = model m k ∧ ∀ k2, model m' k2 = model m k2) ∧
    (∀ r m', HashMap.insert hash m k v = some (r, m') →
      r = model m k ∧ model m' k = some v ∧
      (∀ k2, k2 ≠ k → model m' k2 = model m k2) ∧
      ∃ m2, HashMap.get hash m' k = some (some v, m2)) ∧
    (∀ r m', HashMap.remove hash m k = some (r, m') →
      r = model m k ∧ model m' k = none ∧
      (∀ k2, k2 ≠ k → model m' k2 = model m k2) ∧
      (r ≠ none →
        (∃ m2, HashMap.get hash m' k = some (none, m2)) ∧
        (∃ m3, HashMap.contains_key hash m' k = some (false, m3)) ∧
        (∃ m4, HashMap.remove hash m' k = some (none, m4)))) := by
  have hg := reachable_good hash hr
  refine ⟨?_, ?_, ?_⟩
  · intro r m' h
    obtain ⟨hr', _hg', hmodel, _, _⟩ := get_success hash hg h
    exact ⟨hr', hmodel⟩
  · intro r m' h
    obtain ⟨hr', hg', hlk', hother, _, _⟩ := insert_success hash hg h
    refine ⟨hr', hlk', hother, ?_⟩
    obtain ⟨m2, hget⟩ := get_total hash k hg' (Or.inr (Or.inr (by rw [hlk']; simp)))
    rw [hlk'] at hget
    exact ⟨m2, hget⟩
  · intro r m' h
    obtain ⟨hr', hg', hlk', hother, _hnone, hsome, hlenpres⟩ := remove_success hash hg h
    refine ⟨hr', hlk', hother, ?_⟩
    intro hrne
    have hlt : m'.items < m'.table.length := by
      have h1 := hg.items_eq
      have h2 := countPairs_le_length m.table
      obtain ⟨h3, h4⟩ := hsome hrne
      omega
    have hcond : m'.table.length = 0 ∨ m'.items < m'.table.length ∨
        lookupTable m'.table k ≠ none := Or.inr (Or.inl hlt)
    obtain ⟨m2, hget2⟩ := get_total hash k hg' hcond
    rw [hlk'] at hget2
    obtain ⟨m3, hcont⟩ := contains_total hash k hg' hcond
    rw [hlk'] at hcont
    obtain ⟨m4, hrem2⟩ := remove_total hash k hg' hcond
    rw [hlk'] at hrem2
    exact ⟨⟨m2, hget2⟩, ⟨m3, by simpa using hcont⟩, ⟨m4, hrem2⟩⟩

theorem claim_C5_roundtrip_witness :
    ∃ m2, HashMap.get (fun n => n) (⟨[Entry.Pair 0 0], 1, 0⟩ : HashMap Nat Nat) 0 =
      some (some 0, m2) :=
  ((claim_C5_roundtrip (fun n => n) 0 0 Reachable.new).2.1 none
    ⟨[Entry.Pair 0 0], 1, 0⟩ (by decide)).2.2.2

/-- C6 (amended): inserting an existing key on a reachable state returns the
previous value and leaves `len()` unchanged; the `tombs` counter is unchanged
only when no growth resize precedes the probe — when the growth condition
holds (as it can on reachable states with tombstones), growth resets `tombs`
to 0, so "leaves the tombs counter unchanged" does not hold in general. -/
theorem claim_C6_update_in_place (hash : K → Nat) {m : HashMap K V} {k : K}
    {oldv : V} (v : V) (hr : Reachable hash m)
    (hlk : lookupTable m.table k = some oldv) :
    ∃ m', HashMap.insert hash m k v = some (some oldv, m') ∧
      HashMap.len m' = HashMap.len m ∧
      (¬(m.table.length = 0 ∨ 3 * m.table.length / 4 ≤ m.items) → m'.tombs = m.tombs) ∧
      ((m.table.length = 0 ∨ 3 * m.table.length / 4 ≤ m.items) → m'.tombs = 0) := by
  have hg := reachable_good hash hr
  obtain ⟨m1, hg1, hmodel, hitems, hins, hn1, hgrow, hnogrow⟩ := insert_branches hash hg k v
  have hlk1 : lookupTable m1.table k = some oldv := by rw [hmodel k]; exact hlk
  obtain ⟨m2, heq, hg2, hlen2, hitems2, htombs2, hlk2, hother2⟩ :=
    insertProbe_found hash v hg1 hn1 hlk1
  refine ⟨m2, by rw [hins]; exact heq, ?_, ?_, ?_⟩
  · rw [HashMap.len, HashMap.len]
    omega
  · intro hc
    obtain ⟨hm1, _⟩ := hnogrow hc
    rw [htombs2, hm1]
  · intro hc
    rw [htombs2, (hgrow hc).2.1]

theorem claim_C6_update_in_place_witness :
    ∃ m', HashMap.insert (fun n => n) (⟨[Entry.Pair 0 0], 1, 0⟩ : HashMap Nat Nat) 0 7 =
        some (some 0, m') ∧
      HashMap.len m' = HashMap.len (⟨[Entry.Pair 0 0], 1, 0⟩ : HashMap Nat Nat) ∧
      (¬((⟨[Entry.Pair 0 0], 1, 0⟩ : HashMap Nat Nat).table.length = 0 ∨
          3 * (⟨[Entry.Pair 0 0], 1, 0⟩ : HashMap Nat Nat).table.length / 4 ≤
            (⟨[Entry.Pair 0 0], 1, 0⟩ : HashMap Nat Nat).items) →
        m'.tombs = (⟨[Entry.Pair 0 0], 1, 0⟩ : HashMap Nat Nat).tombs) ∧
      (((⟨[Entry.Pair 0 0], 1, 0⟩ : HashMap Nat Nat).table.length = 0 ∨
          3 * (⟨[Entry.Pair 0 0], 1, 0⟩ : HashMap Nat Nat).table.length / 4 ≤
            (⟨[Entry.Pair 0 0], 1, 0⟩ : HashMap Nat Nat).items) →
        m'.tombs = 0) :=
  claim_C6_update_in_place (fun n => n) 7 reachable_p00 (by decide)

/-- C6 counterexample: the state
`{table := [Pair 4 4, Del, Pair 2 2, Pair 3 3], items := 3, tombs := 1}` is
reachable and contains the live key 2; `insert 2 99` returns the previous
value 2 and keeps `len() = 3`, but the growth resize that precedes the probe
drops the tombstone: `tombs` changes from 1 to 0, refuting "leaves the tombs
counter unchanged". -/
theorem claim_C6_counterexample :
    Reachable (fun n => n)
      (⟨[Entry.Pair 4 4, Entry.Del, Entry.Pair 2 2, Entry.Pair 3 3], 3, 1⟩ :
        HashMap Nat Nat) ∧
    HashMap.insert (fun n => n)
      (⟨[Entry.Pair 4 4, Entry.Del, Entry.Pair 2 2, Entry.Pair 3 3], 3, 1⟩ :
        HashMap Nat Nat) 2 99 =
      some (some 2,
        ⟨[Entry.Empty, Entry.Empty, Entry.Pair 2 99, Entry.Pair 3 3, Entry.Pair 4 4,
          Entry.Empty, Entry.Empty, Entry.Empty], 3, 0⟩) ∧
    (⟨[Entry.Empty, Entry.Empty, Entry.Pair 2 99, Entry.Pair 3 3, Entry.Pair 4 4,
        Entry.Empty, Entry.Empty, Entry.Empty], 3, 0⟩ : HashMap Nat Nat).tombs ≠
      (⟨[Entry.Pair 4 4, Entry.Del, Entry.Pair 2 2, Entry.Pair 3 3], 3, 1⟩ :
        HashMap Nat Nat).tombs :=
  ⟨reachable_c6_state, by decide, by decide⟩

-- Sanity checks of the embedding on concrete traces (with identity hash).
example : HashMap.insert (fun n => n) (HashMap.new : HashMap Nat Nat) 0 0 =
    some (none, ⟨[Entry.Pair 0 0], 1, 0⟩) := by decide

-- The "insert one key, then get an absent key" trace hits the fence:
example : HashMap.get (fun n => n) (⟨[Entry.Pair 0 0], 1, 0⟩ : HashMap Nat Nat) 1 = none := by
  decide

-- A get on the very key stored succeeds (after a declutter).
example : HashMap.get (fun n => n) (⟨[Entry.Pair 0 0], 1, 0⟩ : HashMap Nat Nat) 0 =
    some (some 0, ⟨[Entry.Pair 0 0], 1, 0⟩) := by decide

-- Remove on a one-slot table declutters first, then deletes.
example : HashMap.remove (fun n => n) (⟨[Entry.Pair 0 0], 1, 0⟩ : HashMap Nat Nat) 0 =
    some (some 0, ⟨[Entry.Del], 0, 1⟩) := by decide

end HM
